import Mathlib

/-!
Verification of the gray-maze shortest-path search (`searchGrayMaze`, maze.c).

Shallow embedding of the grayscale maze search of leptonlib-1.58 (`src/maze.c`,
function `searchGrayMaze`) together with the pixel accessors it uses
(`src/pix2.c`: `pixGetPixel`, `pixSetPixel`, `pixSetAll`).

Modelling conventions:
* An image (`PIX`) is a width, a height, a depth and a row-major list of pixel
  values; `pixSetPixel` truncates the stored value to the pixel depth, exactly
  as the bit-packed `SET_DATA_*` macros do.
* `pixGetPixel` first zeroes the output value and then bounds-checks, so a
  caller that ignores the error code observes `0` for an out-of-bounds read;
  `pixGetD` is that observed value.
* Distances are carried as `Nat`.  The C code stores them in an `l_float32`
  heap field and an `l_int32`; both represent the integer distances of the
  algorithm exactly (the stored values are the ones that pass `dist < valr`
  with `valr` at most `2^32 - 1`, and float32 is exact on such integers in the
  regimes the algorithm is designed for).
* The priority heap (`pheapCreate`/`pheapAdd`/`pheapRemove`, file pheap.c) is
  not part of the reviewed sources; it is modelled from the spec: a min-queue
  ordered by ascending cumulative cost whose `remove` returns an entry of
  minimal cost (ties implementation-defined; we take the first minimal one).
* The search loop in C terminates by popping the goal or emptying the heap;
  the embedding runs it on explicit fuel and we prove the canonical fuel is
  never exhausted.  The path-reconstruction walk in C can loop forever (its
  state is just the current coordinate, so more than `w*h + 1` steps force a
  repeated coordinate and hence an infinite loop); the embedding gives it
  `w*h + 2` fuel and reports fuel exhaustion as the `hang` outcome.
-/

set_option maxRecDepth 8000

/-- Image model: `PIX` of pix.h restricted to the fields the maze search
touches (width, height, depth, pixel data).  Data is row-major,
`data[y * w + x]`, each stored value already truncated to `d` bits. -/
structure Pix where
  w : Nat
  h : Nat
  d : Nat
  data : List Nat
deriving DecidableEq, Repr

/-- `pixGetPixel` (pix2.c): bounds-checked read.  Returns `none` on an
out-of-bounds coordinate (the C function returns an error code `1`). -/
def pixGetPixel (p : Pix) (x y : Nat) : Option Nat :=
  if x < p.w ∧ y < p.h then some (p.data.getD (y * p.w + x) 0) else none

/-- The value a caller that ignores `pixGetPixel`'s error code observes:
the C function sets `*pval = 0` before its bounds checks, so a failed read
leaves `0`. -/
def pixGetD (p : Pix) (x y : Nat) : Nat :=
  (pixGetPixel p x y).getD 0

/-- `pixSetPixel` (pix2.c): bounds-checked write; the stored value is
truncated to the pixel depth (`SET_DATA_BYTE` etc. keep the low `d` bits).
An out-of-bounds write is a no-op (the C function just returns an error). -/
def pixSetPixel (p : Pix) (x y v : Nat) : Pix :=
  if x < p.w ∧ y < p.h then
    { p with data := p.data.set (y * p.w + x) (v % 2 ^ p.d) }
  else p

/-- Modelled from the spec: `pixCreate` (pix1.c, not under src/) allocates a
zero-initialized image. -/
def pixCreate (w h d : Nat) : Pix :=
  ⟨w, h, d, List.replicate (w * h) 0⟩

/-- `pixSetAll` (pix2.c): sets every bit of the image, so every pixel holds
the maximum representable value `2^d - 1`. -/
def pixSetAll (p : Pix) : Pix :=
  { p with data := List.replicate p.data.length (2 ^ p.d - 1) }

/-- The sentinel "infinite" distance: a 32-bpp pixel with all bits set. -/
def MAXD : Nat := 2 ^ 32 - 1

/-- Direction-to-parent codes, from the `enum` at the top of maze.c. -/
def START_LOC : Nat := 0
/-- maze.c direction enum: north. -/
def DIR_NORTH : Nat := 1
/-- maze.c direction enum: south. -/
def DIR_SOUTH : Nat := 2
/-- maze.c direction enum: west. -/
def DIR_WEST : Nat := 3
/-- maze.c direction enum: east. -/
def DIR_EAST : Nat := 4

/-- `struct MazeElement` of maze.c (fields in source order: distance, x, y,
val, dir).  `distance` is the cumulative cost, `val` the elevation of the
pixel at `(x, y)` recorded when the element was pushed. -/
structure MazeEl where
  distance : Nat
  x : Nat
  y : Nat
  val : Nat
  dir : Nat
deriving DecidableEq, Repr

/-- `mazeelCreate` (maze.c): calloc-zeroed element with `x`, `y`, `dir` set. -/
def mazeelCreate (x y dir : Nat) : MazeEl :=
  ⟨0, x, y, 0, dir⟩

/-- Modelled from the spec: `pheapAdd` (pheap.c, not under src/) inserts an
element into the frontier. -/
def pheapAdd (hp : List MazeEl) (e : MazeEl) : List MazeEl :=
  hp ++ [e]

/-- Modelled from the spec: `pheapRemove` (pheap.c, not under src/) removes
and returns an entry of minimal cumulative cost (`L_SORT_INCREASING`); among
cost ties the spec leaves the order implementation-defined, and we return the
first minimal entry. -/
def pheapRemove : List MazeEl → Option (MazeEl × List MazeEl)
  | [] => none
  | e :: rest =>
    match pheapRemove rest with
    | none => some (e, [])
    | some (m, rest') =>
      if e.distance ≤ m.distance then some (e, rest)
      else some (m, e :: rest')

/-- The per-move cost of maze.c: `cost = 1 + L_ABS(sivals - sival)` where
`sival` is the elevation carried by the popped element and `sivals` the
elevation of the neighbor being examined (both signed 32-bit in C; the values
are 8-bit pixels, so the `Int` subtraction is exact). -/
def stepCost (sival sivals : Nat) : Nat :=
  1 + ((sivals : Int) - (sival : Int)).natAbs

/-- Mutable state of the search: `pixr` (32 bpp minimum-distance map),
`pixp` (8 bpp direction-to-parent map) and the frontier heap. -/
structure GState where
  pixr : Pix
  pixp : Pix
  heap : List MazeEl
deriving DecidableEq, Repr

/-- One neighbor examination of the searchGrayMaze loop body: read the
neighbor's elevation and current best distance, compute
`dist = distparent + cost`, and if `dist < valr` relax: store the new
distance, record the direction back to the parent, push a new element. -/
def relax (pixs : Pix) (distparent sival nx ny dir : Nat) (s : GState) :
    GState :=
  let vals := pixGetD pixs nx ny
  let valr := pixGetD s.pixr nx ny
  let cost := stepCost sival vals
  let dist := distparent + cost
  if dist < valr then
    { pixr := pixSetPixel s.pixr nx ny dist,
      pixp := pixSetPixel s.pixp nx ny dir,
      heap := pheapAdd s.heap ⟨dist, nx, ny, vals, 0⟩ }
  else s

/-- The loop body of searchGrayMaze after a non-goal element has been popped:
examine west, north, east, south neighbors in source order, each guarded by
the corresponding bounds test on the popped coordinate. -/
def expand (pixs : Pix) (w h : Nat) (elp : MazeEl) (s : GState) : GState :=
  let x := elp.x
  let y := elp.y
  let distparent := elp.distance
  let sival := elp.val
  let s1 := if 0 < x then relax pixs distparent sival (x - 1) y DIR_EAST s else s
  let s2 := if 0 < y then relax pixs distparent sival x (y - 1) DIR_SOUTH s1 else s1
  let s3 := if x < w - 1 then relax pixs distparent sival (x + 1) y DIR_WEST s2 else s2
  let s4 := if y < h - 1 then relax pixs distparent sival x (y + 1) DIR_NORTH s3 else s3
  s4

/-- How the search loop ended. -/
inductive LoopExit where
  /-- the destination `(xf, yf)` was pulled off the queue (the exit test). -/
  | goalPopped (elp : MazeEl) : LoopExit
  /-- `pheapGetCount(ph) > 0` failed: the frontier emptied. -/
  | exhausted : LoopExit
  /-- embedding artifact: the fuel ran out (proved unreachable for the
  canonical fuel). -/
  | fuelOut : LoopExit
deriving DecidableEq, Repr

/-- The `while (pheapGetCount(ph) > 0)` search loop of searchGrayMaze, on
explicit fuel. -/
def runLoop (pixs : Pix) (xf yf : Nat) : Nat → GState → GState × LoopExit
  | 0, s => (s, .fuelOut)
  | fuel + 1, s =>
    match pheapRemove s.heap with
    | none => (s, .exhausted)
    | some (elp, rest) =>
      if elp.x = xf ∧ elp.y = yf then ({ s with heap := rest }, .goalPopped elp)
      else
        runLoop pixs xf yf fuel
          (expand pixs pixs.w pixs.h elp { s with heap := rest })

/-- Where the stored direction code points: the parent-walk of the
reconstruction loop (`DIR_NORTH` decrements y, `DIR_SOUTH` increments y,
`DIR_EAST` increments x, `DIR_WEST` decrements x; any other code leaves the
coordinate unchanged, which is what the C loop does since no branch fires). -/
def moveToParent (dir x y : Nat) : Nat × Nat :=
  if dir = DIR_NORTH then (x, y - 1)
  else if dir = DIR_SOUTH then (x, y + 1)
  else if dir = DIR_EAST then (x + 1, y)
  else if dir = DIR_WEST then (x - 1, y)
  else (x, y)

/-- The path-reconstruction loop of searchGrayMaze: starting at the goal,
append the current coordinate, stop if it is the start, otherwise follow the
direction stored in `pixp`.  Runs on fuel; `none` models the C loop never
reaching the start (it then runs forever, since its state is only the current
coordinate). -/
def walkPath (pixp : Pix) (xi yi : Nat) : Nat → Nat → Nat → Option (List (Nat × Nat))
  | 0, _, _ => none
  | fuel + 1, x, y =>
    if x = xi ∧ y = yi then some [(x, y)]
    else
      let val := pixGetD pixp x y
      let nxt := moveToParent val x y
      match walkPath pixp xi yi fuel nxt.1 nxt.2 with
      | none => none
      | some l => some ((x, y) :: l)

/-- `composeRGBPixel` (pix2.c) packs r, g, b into one 32-bit pixel; the shift
constants live in a header that is not under src/ and are modelled from the
library's documented layout (r, g, b from the most significant byte down). -/
def composeRGBPixel (r g b : Nat) : Nat :=
  (r <<< 24) ||| (g <<< 16) ||| (b <<< 8)

/-- Modelled from the spec: `pixConvert8To32` (not under src/) produces the
"32 bpp RGB version of pixs" used for the optional overlay, replicating each
gray value into the three color samples. -/
def pixConvert8To32 (p : Pix) : Pix :=
  ⟨p.w, p.h, 32, p.data.map fun v => composeRGBPixel v v v⟩

/-- The overlay painting of searchGrayMaze: every reconstructed point except
the start painted green during the walk, then the start painted red and the
goal blue. -/
def paintResult (im : Pix) (l : List (Nat × Nat)) (xi yi xf yf : Nat) : Pix :=
  let g := l.dropLast.foldl
    (fun m c => pixSetPixel m c.1 c.2 (composeRGBPixel 0 255 0)) im
  pixSetPixel (pixSetPixel g xi yi (composeRGBPixel 255 0 0)) xf yf
    (composeRGBPixel 0 0 255)

/-- Outcome of `searchGrayMaze` as observed by the caller. -/
inductive SearchOut where
  /-- a `(PTA *)ERROR_PTR(...)` return: NULL, no search performed. -/
  | err : SearchOut
  /-- the C function never returns: the reconstruction loop runs forever. -/
  | hang : SearchOut
  /-- the returned point array, in the order the points were added. -/
  | ok (pta : List (Nat × Nat)) : SearchOut
deriving DecidableEq, Repr

/-- The state searchGrayMaze primes the search with: distance map all-ones
(then `0` at the start), parent map zeroed, heap holding the start element
with distance `0` and the start pixel's value. -/
def initState (pixs : Pix) (xi yi : Nat) : GState :=
  { pixr := pixSetPixel (pixSetAll (pixCreate pixs.w pixs.h 32)) xi yi 0,
    pixp := pixCreate pixs.w pixs.h 8,
    heap := [{ distance := 0, x := xi, y := yi, val := pixGetD pixs xi yi,
                dir := 0 }] }

/-- Fuel that provably outlasts the search loop (each iteration strictly
decreases `5 * (sum of the distance map) + heap size`). -/
def loopFuel (w h : Nat) : Nat :=
  5 * (w * h * MAXD) + 2

/-- Fuel that provably outlasts any terminating reconstruction walk (the walk
is a deterministic step on the coordinate alone, so a run longer than the
number of cells repeats a coordinate and never terminates). -/
def walkFuel (w h : Nat) : Nat :=
  w * h + 2

/-- Shallow embedding of `searchGrayMaze` (maze.c).  Arguments: the 8 bpp
grid `pixs`, start `(xi, yi)`, goal `(xf, yf)`, and whether the caller
supplied the optional `ppixd` out-parameter.  Returns the caller-observable
outcome together with the final value of `*ppixd` (`none` when absent or
still NULL; it is NULLed on entry before any validation). -/
def searchGrayMaze (pixs : Pix) (xi yi xf yf : Nat) (wantppixd : Bool) :
    SearchOut × Option Pix :=
  if pixs.d ≠ 8 then (.err, none)
  else if xi = 0 ∨ pixs.w ≤ xi then (.err, none)
  else if yi = 0 ∨ pixs.h ≤ yi then (.err, none)
  else
    let res := runLoop pixs xf yf (loopFuel pixs.w pixs.h) (initState pixs xi yi)
    let pixd0 := if wantppixd then some (pixConvert8To32 pixs) else none
    match walkPath res.1.pixp xi yi (walkFuel pixs.w pixs.h) xf yf with
    | none => (.hang, pixd0)
    | some l => (.ok l, pixd0.map fun im => paintResult im l xi yi xf yf)


/-! ## Grid paths and their costs -/

/-- 4-adjacency of grid coordinates (one Manhattan step). -/
def adj4 (a b : Nat × Nat) : Prop :=
  (a.1 = b.1 ∧ (a.2 + 1 = b.2 ∨ b.2 + 1 = a.2)) ∨
  (a.2 = b.2 ∧ (a.1 + 1 = b.1 ∨ b.1 + 1 = a.1))

instance (a b : Nat × Nat) : Decidable (adj4 a b) :=
  inferInstanceAs (Decidable ((a.1 = b.1 ∧ (a.2 + 1 = b.2 ∨ b.2 + 1 = a.2)) ∨
    (a.2 = b.2 ∧ (a.1 + 1 = b.1 ∨ b.1 + 1 = a.1))))

instance : DecidableRel adj4 := fun a b => inferInstance

/-- Boolean 4-adjacency check along a coordinate list, for executable path
checking. -/
def chainB : List (Nat × Nat) → Bool
  | [] => true
  | [_] => true
  | a :: b :: t => decide (adj4 a b) && chainB (b :: t)

theorem chainB_iff : ∀ l : List (Nat × Nat), chainB l = true ↔ l.Chain' adj4
  | [] => by simp [chainB]
  | [a] => by simp [chainB]
  | a :: b :: t => by
    simp only [chainB, Bool.and_eq_true, decide_eq_true_iff, List.chain'_cons,
      chainB_iff (b :: t)]

instance (l : List (Nat × Nat)) : Decidable (l.Chain' adj4) :=
  decidable_of_iff (chainB l = true) (chainB_iff l)

/-- A coordinate lies on the grid. -/
def inGrid (g : Pix) (c : Nat × Nat) : Prop :=
  c.1 < g.w ∧ c.2 < g.h

instance (g : Pix) (c : Nat × Nat) : Decidable (inGrid g c) :=
  inferInstanceAs (Decidable (c.1 < g.w ∧ c.2 < g.h))

/-- Elevation of a grid cell. -/
def elevAt (g : Pix) (c : Nat × Nat) : Nat :=
  pixGetD g c.1 c.2

/-- The cost searchGrayMaze charges for moving between two cells:
`1 + |elevation difference|`. -/
def edgeCost (g : Pix) (a b : Nat × Nat) : Nat :=
  stepCost (elevAt g a) (elevAt g b)

/-- Total cost of a coordinate sequence: the sum of the per-step costs of
consecutive pairs. -/
def pathCost (g : Pix) : List (Nat × Nat) → Nat
  | a :: b :: r => edgeCost g a b + pathCost g (b :: r)
  | _ => 0

/-- A nonempty 4-connected sequence of on-grid coordinates. -/
def IsGridPath (g : Pix) (l : List (Nat × Nat)) : Prop :=
  l ≠ [] ∧ (∀ c ∈ l, inGrid g c) ∧ l.Chain' adj4

/-- A grid path with prescribed endpoints. -/
def PathFromTo (g : Pix) (a b : Nat × Nat) (l : List (Nat × Nat)) : Prop :=
  IsGridPath g l ∧ l.head? = some a ∧ l.getLast? = some b

instance (g : Pix) (l : List (Nat × Nat)) : Decidable (IsGridPath g l) :=
  inferInstanceAs (Decidable (l ≠ [] ∧ (∀ c ∈ l, inGrid g c) ∧ l.Chain' adj4))

instance (g : Pix) (a b : Nat × Nat) (l : List (Nat × Nat)) :
    Decidable (PathFromTo g a b l) :=
  inferInstanceAs
    (Decidable (IsGridPath g l ∧ l.head? = some a ∧ l.getLast? = some b))

/-- All total costs of grid paths from `a` to `b`. -/
def costSet (g : Pix) (a b : Nat × Nat) : Set Nat :=
  {n | ∃ l, PathFromTo g a b l ∧ pathCost g l = n}

theorem stepCost_comm (a b : Nat) : stepCost a b = stepCost b a := by
  unfold stepCost
  rw [← Int.natAbs_neg (b - a)]
  ring_nf

theorem one_le_stepCost (a b : Nat) : 1 ≤ stepCost a b :=
  Nat.le_add_right 1 _

theorem edgeCost_comm (g : Pix) (a b : Nat × Nat) :
    edgeCost g a b = edgeCost g b a :=
  stepCost_comm _ _

/-! ## Basic pixel-accessor lemmas -/

theorem pixSetPixel_w (p : Pix) (x y v : Nat) : (pixSetPixel p x y v).w = p.w := by
  unfold pixSetPixel; split <;> rfl

theorem pixSetPixel_h (p : Pix) (x y v : Nat) : (pixSetPixel p x y v).h = p.h := by
  unfold pixSetPixel; split <;> rfl

theorem pixSetPixel_d (p : Pix) (x y v : Nat) : (pixSetPixel p x y v).d = p.d := by
  unfold pixSetPixel; split <;> rfl

theorem pixSetPixel_len (p : Pix) (x y v : Nat) :
    (pixSetPixel p x y v).data.length = p.data.length := by
  unfold pixSetPixel; split <;> simp

theorem pixGetD_oob (p : Pix) (x y : Nat) (hx : ¬(x < p.w ∧ y < p.h)) :
    pixGetD p x y = 0 := by
  unfold pixGetD pixGetPixel
  rw [if_neg hx]
  rfl

theorem pixGetD_inb (p : Pix) (x y : Nat) (hx : x < p.w) (hy : y < p.h) :
    pixGetD p x y = p.data.getD (y * p.w + x) 0 := by
  unfold pixGetD pixGetPixel
  rw [if_pos ⟨hx, hy⟩]
  rfl

/-- Row-major index bound. -/
theorem rowmajor_lt {w h x y : Nat} (hx : x < w) (hy : y < h) :
    y * w + x < w * h := by
  calc y * w + x < y * w + w := by omega
  _ = (y + 1) * w := by ring
  _ ≤ h * w := Nat.mul_le_mul_right w hy
  _ = w * h := Nat.mul_comm h w

/-- Row-major indices of distinct in-bounds coordinates differ. -/
theorem rowmajor_inj {w x y x' y' : Nat} (hx : x < w) (hx' : x' < w)
    (hne : ¬(x = x' ∧ y = y')) : y * w + x ≠ y' * w + x' := by
  intro he
  have hx1 : (y * w + x) % w = x := by
    rw [Nat.add_comm, Nat.add_mul_mod_self_right, Nat.mod_eq_of_lt hx]
  have hx2 : (y' * w + x') % w = x' := by
    rw [Nat.add_comm, Nat.add_mul_mod_self_right, Nat.mod_eq_of_lt hx']
  have hxx : x = x' := by rw [← hx1, ← hx2, he]
  apply hne
  refine ⟨hxx, ?_⟩
  subst hxx
  have hw : 0 < w := by omega
  have hmul : y * w = y' * w := by omega
  exact Nat.eq_of_mul_eq_mul_right hw hmul

theorem pixGetD_set_self (p : Pix) (x y v : Nat) (hx : x < p.w) (hy : y < p.h)
    (hlen : p.data.length = p.w * p.h) :
    pixGetD (pixSetPixel p x y v) x y = v % 2 ^ p.d := by
  obtain ⟨w, h, d, data⟩ := p
  simp only at hx hy hlen
  unfold pixSetPixel
  dsimp only
  rw [if_pos ⟨hx, hy⟩]
  unfold pixGetD pixGetPixel
  dsimp only
  rw [if_pos ⟨hx, hy⟩]
  dsimp only [Option.getD_some]
  have hidx : y * w + x < (data.set (y * w + x) (v % 2 ^ d)).length := by
    rw [List.length_set, hlen]
    exact rowmajor_lt hx hy
  rw [List.getD_eq_getElem _ _ hidx]
  exact List.getElem_set_self _

theorem pixGetD_set_ne (p : Pix) (x y v x' y' : Nat)
    (hne : ¬(x = x' ∧ y = y')) :
    pixGetD (pixSetPixel p x y v) x' y' = pixGetD p x' y' := by
  obtain ⟨w, h, d, data⟩ := p
  unfold pixSetPixel
  dsimp only
  split
  · rename_i hin
    by_cases hin' : x' < w ∧ y' < h
    · unfold pixGetD pixGetPixel
      dsimp only
      rw [if_pos hin', if_pos hin']
      dsimp only [Option.getD_some]
      have hidx : y * w + x ≠ y' * w + x' :=
        rowmajor_inj hin.1 hin'.1 hne
      rw [List.getD_eq_getD_get?, List.getD_eq_getD_get?,
        List.get?_set_ne _ _ hidx]
    · unfold pixGetD pixGetPixel
      dsimp only
      rw [if_neg hin', if_neg hin']
  · rfl

/-- Any value read from an image whose stored data is bounded is bounded. -/
theorem pixGetD_lt_of_data (p : Pix) (x y B : Nat) (hB : 0 < B)
    (hall : ∀ v ∈ p.data, v < B) : pixGetD p x y < B := by
  by_cases hin : x < p.w ∧ y < p.h
  · rw [pixGetD_inb _ _ _ hin.1 hin.2]
    rcases Nat.lt_or_ge (y * p.w + x) p.data.length with hidx | hidx
    · rw [List.getD_eq_getElem _ _ hidx]
      exact hall _ (List.getElem_mem _)
    · rw [List.getD_eq_default _ _ hidx]; exact hB
  · rw [pixGetD_oob _ _ _ hin]; exact hB

/-! ## Heap lemmas (for the spec-modelled min-queue) -/

theorem pheapRemove_none {l : List MazeEl} : pheapRemove l = none ↔ l = [] := by
  cases l with
  | nil => simp [pheapRemove]
  | cons e rest =>
    simp only [pheapRemove]
    constructor
    · intro h
      cases hr : pheapRemove rest with
      | none => rw [hr] at h; simp at h
      | some p => rw [hr] at h; obtain ⟨m, r'⟩ := p; dsimp at h; split at h <;> simp at h
    · intro h; simp at h

theorem pheapRemove_perm {l : List MazeEl} {e : MazeEl} {rest : List MazeEl}
    (h : pheapRemove l = some (e, rest)) : l.Perm (e :: rest) := by
  induction l generalizing e rest with
  | nil => simp [pheapRemove] at h
  | cons a t ih =>
    simp only [pheapRemove] at h
    cases hr : pheapRemove t with
    | none =>
      rw [hr] at h
      have ht : t = [] := pheapRemove_none.mp hr
      simp only [Option.some.injEq, Prod.mk.injEq] at h
      subst ht
      rw [← h.1, ← h.2]
    | some p =>
      obtain ⟨m, r'⟩ := p
      rw [hr] at h
      dsimp only at h
      split at h
      · simp only [Option.some.injEq, Prod.mk.injEq] at h
        rw [← h.1, ← h.2]
      · simp only [Option.some.injEq, Prod.mk.injEq] at h
        obtain ⟨he, hrest⟩ := h
        subst hrest
        subst he
        exact ((ih hr).cons a).trans (List.Perm.swap _ _ _)

theorem pheapRemove_min {l : List MazeEl} {e : MazeEl} {rest : List MazeEl}
    (h : pheapRemove l = some (e, rest)) :
    ∀ x ∈ l, e.distance ≤ x.distance := by
  induction l generalizing e rest with
  | nil => simp [pheapRemove] at h
  | cons a t ih =>
    simp only [pheapRemove] at h
    cases hr : pheapRemove t with
    | none =>
      rw [hr] at h
      have ht : t = [] := pheapRemove_none.mp hr
      simp only [Option.some.injEq, Prod.mk.injEq] at h
      subst ht
      intro x hx
      simp only [List.mem_singleton] at hx
      rw [← h.1, hx]
    | some p =>
      obtain ⟨m, r'⟩ := p
      rw [hr] at h
      dsimp only at h
      split at h
      · rename_i hle
        simp only [Option.some.injEq, Prod.mk.injEq] at h
        obtain ⟨he, _⟩ := h
        subst he
        intro x hx
        rcases List.mem_cons.mp hx with hx | hx
        · rw [hx]
        · exact le_trans hle (ih hr x hx)
      · rename_i hgt
        simp only [Option.some.injEq, Prod.mk.injEq] at h
        obtain ⟨he, _⟩ := h
        subst he
        intro x hx
        rcases List.mem_cons.mp hx with hx | hx
        · rw [hx]; omega
        · exact ih hr x hx

theorem pheapRemove_mem {l : List MazeEl} {e : MazeEl} {rest : List MazeEl}
    (h : pheapRemove l = some (e, rest)) : e ∈ l :=
  (pheapRemove_perm h).mem_iff.mpr (List.mem_cons_self e rest)

theorem pheapRemove_rest_mem {l : List MazeEl} {e : MazeEl} {rest : List MazeEl}
    (h : pheapRemove l = some (e, rest)) : ∀ x ∈ rest, x ∈ l := by
  intro x hx
  exact (pheapRemove_perm h).mem_iff.mpr (List.mem_cons_of_mem _ hx)

theorem pheapRemove_mem_rest {l : List MazeEl} {e : MazeEl} {rest : List MazeEl}
    (h : pheapRemove l = some (e, rest)) :
    ∀ x ∈ l, x ≠ e → x ∈ rest := by
  intro x hx hne
  rcases List.mem_cons.mp ((pheapRemove_perm h).mem_iff.mp hx) with h' | h'
  · exact absurd h' hne
  · exact h'

/-! ## Reconstruction-walk lemmas -/

theorem walkPath_head {pixp : Pix} {xi yi fuel x y : Nat} {l : List (Nat × Nat)}
    (h : walkPath pixp xi yi fuel x y = some l) : l.head? = some (x, y) := by
  cases fuel with
  | zero => simp [walkPath] at h
  | succ f =>
    simp only [walkPath] at h
    split at h
    · simp only [Option.some.injEq] at h
      subst h
      rfl
    · split at h
      · exact absurd h (by simp)
      · simp only [Option.some.injEq] at h
        subst h
        rfl

theorem walkPath_getLast {pixp : Pix} {xi yi : Nat} :
    ∀ {fuel x y : Nat} {l : List (Nat × Nat)},
      walkPath pixp xi yi fuel x y = some l → l.getLast? = some (xi, yi) := by
  intro fuel
  induction fuel with
  | zero => intro x y l h; simp [walkPath] at h
  | succ f ih =>
    intro x y l h
    simp only [walkPath] at h
    split at h
    · rename_i hxy
      simp only [Option.some.injEq] at h
      subst h
      simp [hxy.1, hxy.2]
    · split at h
      · exact absurd h (by simp)
      · rename_i l' hl'
        simp only [Option.some.injEq] at h
        subst h
        have hlast := ih hl'
        cases l' with
        | nil => simp at hlast
        | cons a t =>
          rw [List.getLast?_cons_cons]
          exact hlast

/-- If the stored direction does not move the coordinate and the coordinate
is not the start, the reconstruction walk never terminates: the C loop would
run forever. -/
theorem walkPath_stuck {pixp : Pix} {xi yi x y : Nat}
    (hmv : moveToParent (pixGetD pixp x y) x y = (x, y))
    (hne : ¬(x = xi ∧ y = yi)) :
    ∀ fuel, walkPath pixp xi yi fuel x y = none := by
  intro fuel
  induction fuel with
  | zero => rfl
  | succ f ih =>
    simp only [walkPath]
    rw [if_neg hne]
    simp only [hmv]
    rw [ih]

/-! ## Termination of the search loop -/

theorem sum_set_add (l : List Nat) :
    ∀ (i v : Nat), i < l.length → (l.set i v).sum + l.getD i 0 = l.sum + v := by
  induction l with
  | nil => intro i v h; simp at h
  | cons a t ih =>
    intro i v h
    cases i with
    | zero => simp [List.sum_cons]; omega
    | succ j =>
      simp only [List.set_cons_succ, List.sum_cons, List.getD_cons_succ]
      have := ih j v (by simpa using h)
      omega

theorem sum_set_le (l : List Nat) : ∀ (i v : Nat), (l.set i v).sum ≤ l.sum + v := by
  induction l with
  | nil => intro i v; simp
  | cons a t ih =>
    intro i v
    cases i with
    | zero => simp [List.sum_cons]; omega
    | succ j =>
      simp only [List.set_cons_succ, List.sum_cons]
      have := ih j v
      omega

/-- Well-formedness of the distance map relative to the grid: right
dimensions, 32 bpp, dense data, stored values representable. -/
def WFpixr (pixs : Pix) (r : Pix) : Prop :=
  r.w = pixs.w ∧ r.h = pixs.h ∧ r.d = 32 ∧
  r.data.length = pixs.w * pixs.h ∧ ∀ v ∈ r.data, v < 2 ^ 32

instance (pixs r : Pix) : Decidable (WFpixr pixs r) :=
  inferInstanceAs (Decidable (r.w = pixs.w ∧ r.h = pixs.h ∧ r.d = 32 ∧
    r.data.length = pixs.w * pixs.h ∧ ∀ v ∈ r.data, v < 2 ^ 32))

/-- Decreasing measure of a loop iteration: every relaxation lowers the
distance-map sum, every pop shrinks the heap. -/
def measureOf (s : GState) : Nat :=
  5 * s.pixr.data.sum + s.heap.length

theorem relax_step (pixs : Pix) (dp sv nx ny dir : Nat) (s : GState)
    (hwf : WFpixr pixs s.pixr) :
    WFpixr pixs (relax pixs dp sv nx ny dir s).pixr ∧
    (relax pixs dp sv nx ny dir s = s ∨
      measureOf (relax pixs dp sv nx ny dir s) + 4 ≤ measureOf s) := by
  obtain ⟨hw, hh, hd, hlen, hvals⟩ := hwf
  unfold relax
  dsimp only
  split
  · rename_i hguard
    set valr := pixGetD s.pixr nx ny with hvalr
    set dist := dp + stepCost sv (pixGetD pixs nx ny) with hdist
    have hin : nx < s.pixr.w ∧ ny < s.pixr.h := by
      by_contra hoob
      rw [pixGetD_oob _ _ _ hoob] at hvalr
      omega
    have hvlt : valr < 2 ^ 32 := pixGetD_lt_of_data _ _ _ _ (by norm_num) hvals
    have hdlt : dist < 2 ^ 32 := by omega
    have hidx : ny * s.pixr.w + nx < s.pixr.data.length := by
      rw [hlen, ← hw, ← hh]; exact rowmajor_lt hin.1 hin.2
    constructor
    · refine ⟨by rw [pixSetPixel_w, hw], by rw [pixSetPixel_h, hh],
        by rw [pixSetPixel_d, hd], ?_, ?_⟩
      · rw [pixSetPixel_len, hlen]
      · intro v hv
        unfold pixSetPixel at hv
        rw [if_pos hin] at hv
        dsimp only at hv
        rcases List.mem_or_eq_of_mem_set hv with hv | hv
        · exact hvals v hv
        · rw [hv, hd]; exact Nat.mod_lt _ (by norm_num)
    · right
      unfold measureOf
      dsimp only
      unfold pixSetPixel
      rw [if_pos hin]
      dsimp only
      have hget : s.pixr.data.getD (ny * s.pixr.w + nx) 0 = valr := by
        rw [hvalr, pixGetD_inb _ _ _ hin.1 hin.2]
      have hmod : dist % 2 ^ s.pixr.d = dist := by
        rw [hd]; exact Nat.mod_eq_of_lt hdlt
      rw [hmod]
      have hsum := sum_set_add s.pixr.data (ny * s.pixr.w + nx) dist hidx
      rw [hget] at hsum
      have hlenheap : (pheapAdd s.heap ⟨dist, nx, ny, pixGetD pixs nx ny, 0⟩).length
          = s.heap.length + 1 := by
        unfold pheapAdd; simp
      rw [hlenheap]
      omega
  · exact ⟨⟨hw, hh, hd, hlen, hvals⟩, Or.inl rfl⟩

theorem expand_step (pixs : Pix) (w h : Nat) (elp : MazeEl) (s : GState)
    (hwf : WFpixr pixs s.pixr) :
    WFpixr pixs (expand pixs w h elp s).pixr ∧
    measureOf (expand pixs w h elp s) ≤ measureOf s := by
  unfold expand
  dsimp only
  have step1 : ∀ (dp sv nx ny dir : Nat) (t : GState), WFpixr pixs t.pixr →
      WFpixr pixs (relax pixs dp sv nx ny dir t).pixr ∧
      measureOf (relax pixs dp sv nx ny dir t) ≤ measureOf t := by
    intro dp sv nx ny dir t hwft
    obtain ⟨h1, h2⟩ := relax_step pixs dp sv nx ny dir t hwft
    refine ⟨h1, ?_⟩
    rcases h2 with h2 | h2
    · rw [h2]
    · omega
  have split1 : ∀ (c : Prop) [Decidable c] (dp sv nx ny dir : Nat) (t : GState),
      WFpixr pixs t.pixr →
      WFpixr pixs (if c then relax pixs dp sv nx ny dir t else t).pixr ∧
      measureOf (if c then relax pixs dp sv nx ny dir t else t) ≤ measureOf t := by
    intro c _ dp sv nx ny dir t hwft
    split
    · exact step1 dp sv nx ny dir t hwft
    · exact ⟨hwft, le_refl _⟩
  obtain ⟨hwf1, hm1⟩ := split1 (0 < elp.x) elp.distance elp.val (elp.x - 1) elp.y DIR_EAST s hwf
  obtain ⟨hwf2, hm2⟩ := split1 (0 < elp.y) elp.distance elp.val elp.x (elp.y - 1) DIR_SOUTH _ hwf1
  obtain ⟨hwf3, hm3⟩ := split1 (elp.x < w - 1) elp.distance elp.val (elp.x + 1) elp.y DIR_WEST _ hwf2
  obtain ⟨hwf4, hm4⟩ := split1 (elp.y < h - 1) elp.distance elp.val elp.x (elp.y + 1) DIR_NORTH _ hwf3
  exact ⟨hwf4, le_trans hm4 (le_trans hm3 (le_trans hm2 hm1))⟩

theorem runLoop_not_fuelOut (pixs : Pix) (xf yf : Nat) :
    ∀ (fuel : Nat) (s : GState), WFpixr pixs s.pixr → measureOf s < fuel →
      (runLoop pixs xf yf fuel s).2 ≠ .fuelOut := by
  intro fuel
  induction fuel with
  | zero => intro s _ hm; omega
  | succ f ih =>
    intro s hwf hm
    simp only [runLoop]
    cases hr : pheapRemove s.heap with
    | none => simp
    | some p =>
      obtain ⟨elp, rest⟩ := p
      dsimp only
      split
      · simp
      · have hlenr : s.heap.length = rest.length + 1 := by
          have := (pheapRemove_perm hr).length_eq
          simpa using this
        have hwfr : WFpixr pixs (GState.mk s.pixr s.pixp rest).pixr := hwf
        obtain ⟨hwf', hm'⟩ := expand_step pixs pixs.w pixs.h elp
          (GState.mk s.pixr s.pixp rest) hwfr
        apply ih
        · exact hwf'
        · have : measureOf (GState.mk s.pixr s.pixp rest) + 1 = measureOf s := by
            unfold measureOf
            dsimp only
            omega
          omega

/-- The initial distance map is well-formed and its measure is below the
canonical fuel. -/
theorem initState_wf (pixs : Pix) (xi yi : Nat) :
    WFpixr pixs (initState pixs xi yi).pixr ∧
    measureOf (initState pixs xi yi) < loopFuel pixs.w pixs.h := by
  unfold initState pixCreate pixSetAll
  dsimp only
  have hlenrep : (List.replicate (pixs.w * pixs.h) (0:Nat)).length = pixs.w * pixs.h := by
    simp
  rw [hlenrep]
  constructor
  · unfold pixSetPixel
    dsimp only
    split
    · refine ⟨rfl, rfl, rfl, by simp, ?_⟩
      intro v hv
      rcases List.mem_or_eq_of_mem_set hv with hv | hv
      · rcases List.eq_of_mem_replicate hv with rfl
        norm_num [MAXD]
      · rw [hv]; exact Nat.mod_lt _ (by norm_num)
    · refine ⟨rfl, rfl, rfl, by simp, ?_⟩
      intro v hv
      rcases List.eq_of_mem_replicate hv with rfl
      norm_num [MAXD]
  · unfold measureOf pixSetPixel loopFuel
    dsimp only
    have hrep : (List.replicate (pixs.w * pixs.h) ((2:Nat) ^ 32 - 1)).sum
        = pixs.w * pixs.h * MAXD := by
      rw [List.sum_replicate, smul_eq_mul, MAXD]
    split
    · dsimp only [List.length_cons, List.length_nil]
      have := sum_set_le (List.replicate (pixs.w * pixs.h) ((2:Nat) ^ 32 - 1))
        (yi * pixs.w + xi) (0 % 2 ^ 32)
      rw [hrep] at this
      omega
    · dsimp only [List.length_cons, List.length_nil]
      rw [hrep]
      omega

/-- Generic loop-invariant lemma: if `P` is preserved by the loop body, then
the loop either exhausts the frontier with `P` still holding, or pops the
goal from a state satisfying `P`. -/
theorem runLoop_inv (pixs : Pix) (xf yf : Nat) (P : GState → Prop)
    (hstep : ∀ s elp rest, P s → pheapRemove s.heap = some (elp, rest) →
      ¬(elp.x = xf ∧ elp.y = yf) →
      P (expand pixs pixs.w pixs.h elp (GState.mk s.pixr s.pixp rest))) :
    ∀ (fuel : Nat) (s : GState), P s →
      ((runLoop pixs xf yf fuel s).2 = .exhausted →
        P (runLoop pixs xf yf fuel s).1 ∧ (runLoop pixs xf yf fuel s).1.heap = []) ∧
      (∀ elp, (runLoop pixs xf yf fuel s).2 = .goalPopped elp →
        ∃ pre rest, P pre ∧ pheapRemove pre.heap = some (elp, rest) ∧
          elp.x = xf ∧ elp.y = yf ∧
          (runLoop pixs xf yf fuel s).1 = GState.mk pre.pixr pre.pixp rest) := by
  intro fuel
  induction fuel with
  | zero =>
    intro s hP
    constructor
    · intro hex; simp [runLoop] at hex
    · intro elp hex; simp [runLoop] at hex
  | succ f ih =>
    intro s hP
    simp only [runLoop]
    cases hr : pheapRemove s.heap with
    | none =>
      constructor
      · intro _
        exact ⟨hP, pheapRemove_none.mp hr⟩
      · intro elp hex; simp at hex
    | some p =>
      obtain ⟨elp, rest⟩ := p
      dsimp only
      split
      · rename_i hgoal
        constructor
        · intro hex; simp at hex
        · intro elp' hex
          simp only [LoopExit.goalPopped.injEq] at hex
          subst hex
          exact ⟨s, rest, hP, hr, hgoal.1, hgoal.2, rfl⟩
      · rename_i hngoal
        exact ih _ (hstep s elp rest hP hr hngoal)

/-! ## Grid-path infrastructure -/

theorem pathCost_append_one (g : Pix) :
    ∀ (l : List (Nat × Nat)) (u c : Nat × Nat), l.getLast? = some u →
      pathCost g (l ++ [c]) = pathCost g l + edgeCost g u c := by
  intro l
  induction l with
  | nil => intro u c h; simp at h
  | cons a t ih =>
    intro u c h
    cases t with
    | nil =>
      simp only [List.getLast?_singleton, Option.some.injEq] at h
      subst h
      simp [pathCost]
    | cons b t' =>
      rw [List.getLast?_cons_cons] at h
      have hrec := ih u c h
      calc pathCost g ((a :: b :: t') ++ [c])
          = edgeCost g a b + pathCost g (b :: t' ++ [c]) := rfl
        _ = edgeCost g a b + (pathCost g (b :: t') + edgeCost g u c) := by rw [hrec]
        _ = pathCost g (a :: b :: t') + edgeCost g u c := by
            show edgeCost g a b + (pathCost g (b :: t') + edgeCost g u c)
                = edgeCost g a b + pathCost g (b :: t') + edgeCost g u c
            exact (Nat.add_assoc _ _ _).symm

theorem isGridPath_singleton (g : Pix) (a : Nat × Nat) (ha : inGrid g a) :
    PathFromTo g a a [a] := by
  refine ⟨⟨by simp, by simpa using ha, by simp⟩, by simp, by simp⟩

theorem pathFromTo_snoc (g : Pix) (a u c : Nat × Nat) (l : List (Nat × Nat))
    (hl : PathFromTo g a u l) (hadj : adj4 u c) (hc : inGrid g c) :
    PathFromTo g a c (l ++ [c]) ∧
    pathCost g (l ++ [c]) = pathCost g l + edgeCost g u c := by
  obtain ⟨⟨hne, hmem, hch⟩, hhead, hlast⟩ := hl
  have hcost := pathCost_append_one g l u c hlast
  refine ⟨⟨⟨by simp, ?_, ?_⟩, ?_, ?_⟩, hcost⟩
  · intro x hx
    rcases List.mem_append.mp hx with hx | hx
    · exact hmem x hx
    · rw [List.mem_singleton.mp hx]; exact hc
  · rw [List.chain'_append]
    refine ⟨hch, by simp, ?_⟩
    intro x hx y hy
    rw [hlast] at hx
    simp at hx hy
    rw [← hx, ← hy]
    exact hadj
  · rcases l with _ | ⟨z, t⟩
    · simp at hne
    · simpa using hhead
  · simp

theorem exists_pathFromTo (g : Pix) (a : Nat × Nat) (ha : inGrid g a) :
    ∀ (n : Nat) (b : Nat × Nat), inGrid g b →
      (a.1 - b.1) + (b.1 - a.1) + (a.2 - b.2) + (b.2 - a.2) = n →
      ∃ l, PathFromTo g a b l := by
  intro n
  induction n using Nat.strong_induction_on with
  | _ n ih =>
    intro b hb hdist
    by_cases hab : a = b
    · subst hab
      exact ⟨[a], isGridPath_singleton g a ha⟩
    · have hsplit : a.1 < b.1 ∨ b.1 < a.1 ∨ a.2 < b.2 ∨ b.2 < a.2 := by
        rcases Nat.lt_trichotomy a.1 b.1 with h | h | h
        · exact Or.inl h
        · rcases Nat.lt_trichotomy a.2 b.2 with h2 | h2 | h2
          · exact Or.inr (Or.inr (Or.inl h2))
          · exact absurd (Prod.ext h h2) hab
          · exact Or.inr (Or.inr (Or.inr h2))
        · exact Or.inr (Or.inl h)
      have build : ∀ b' : Nat × Nat, inGrid g b' → adj4 b' b →
          (a.1 - b'.1) + (b'.1 - a.1) + (a.2 - b'.2) + (b'.2 - a.2) < n →
          ∃ l, PathFromTo g a b l := by
        intro b' hb' hadj hlt
        obtain ⟨l, hl⟩ := ih _ hlt b' hb' rfl
        exact ⟨l ++ [b], (pathFromTo_snoc g a b' b l hl hadj hb).1⟩
      rcases hsplit with h | h | h | h
      · refine build (b.1 - 1, b.2) ⟨by have := hb.1; simp; omega, hb.2⟩ ?_ (by simp; omega)
        right
        exact ⟨rfl, Or.inl (by simp; omega)⟩
      · refine build (b.1 + 1, b.2) ⟨by have := ha.1; simp; omega, hb.2⟩ ?_ (by simp; omega)
        right
        exact ⟨rfl, Or.inr (by simp)⟩
      · refine build (b.1, b.2 - 1) ⟨hb.1, by have := hb.2; simp; omega⟩ ?_ (by simp; omega)
        left
        exact ⟨rfl, Or.inl (by simp; omega)⟩
      · refine build (b.1, b.2 + 1) ⟨hb.1, by have := ha.2; simp; omega⟩ ?_ (by simp; omega)
        left
        exact ⟨rfl, Or.inr (by simp)⟩

theorem costSet_nonempty (g : Pix) (a b : Nat × Nat) (ha : inGrid g a)
    (hb : inGrid g b) : (costSet g a b).Nonempty := by
  obtain ⟨l, hl⟩ := exists_pathFromTo g a ha _ b hb rfl
  exact ⟨pathCost g l, l, hl, rfl⟩

theorem sInf_le_pathCost (g : Pix) (a b : Nat × Nat) (l : List (Nat × Nat))
    (hl : PathFromTo g a b l) : sInf (costSet g a b) ≤ pathCost g l :=
  Nat.sInf_le ⟨l, hl, rfl⟩

theorem exists_min_path (g : Pix) (a b : Nat × Nat) (ha : inGrid g a)
    (hb : inGrid g b) :
    ∃ l, PathFromTo g a b l ∧ pathCost g l = sInf (costSet g a b) := by
  have := Nat.sInf_mem (costSet_nonempty g a b ha hb)
  obtain ⟨l, hl, hc⟩ := this
  exact ⟨l, hl, hc⟩

theorem sInf_triangle (g : Pix) (a u c : Nat × Nat) (ha : inGrid g a)
    (hu : inGrid g u) (hc : inGrid g c) (hadj : adj4 u c) :
    sInf (costSet g a c) ≤ sInf (costSet g a u) + edgeCost g u c := by
  obtain ⟨l, hl, hcost⟩ := exists_min_path g a u ha hu
  obtain ⟨hl', hcost'⟩ := pathFromTo_snoc g a u c l hl hadj hc
  calc sInf (costSet g a c) ≤ pathCost g (l ++ [c]) := sInf_le_pathCost g a c _ hl'
  _ = pathCost g l + edgeCost g u c := hcost'
  _ = sInf (costSet g a u) + edgeCost g u c := by rw [hcost]

theorem pathFromTo_unsnoc (g : Pix) (a c : Nat × Nat) (l : List (Nat × Nat))
    (hl : PathFromTo g a c l) (hca : c ≠ a) :
    ∃ l' u, l = l' ++ [c] ∧ PathFromTo g a u l' ∧ adj4 u c ∧ inGrid g u ∧
      pathCost g l = pathCost g l' + edgeCost g u c := by
  obtain ⟨⟨hne, hmem, hch⟩, hhead, hlast⟩ := hl
  have hdecomp : l = l.dropLast ++ [c] := by
    have h1 : l.getLast (by exact hne) = c := by
      rw [List.getLast?_eq_getLast _ hne] at hlast
      exact Option.some.injEq _ _ ▸ (by simpa using hlast)
    conv_lhs => rw [← List.dropLast_append_getLast hne]
    rw [h1]
  rcases hd : l.dropLast with _ | ⟨z, t⟩
  · rw [hd] at hdecomp
    simp at hdecomp
    rw [hdecomp] at hhead
    simp at hhead
    exact absurd hhead hca
  · have hne' : l.dropLast ≠ [] := by rw [hd]; simp
    set l' := l.dropLast with hl'def
    have hu : l'.getLast? = some (l'.getLast hne') := List.getLast?_eq_getLast _ hne'
    set u := l'.getLast hne' with hudef
    have hch' : List.Chain' adj4 l' ∧ adj4 u c := by
      rw [hdecomp] at hch
      rw [List.chain'_append] at hch
      refine ⟨hch.1, ?_⟩
      have := hch.2.2 u (by rw [hu]; rfl) c (by simp)
      exact this
    have hmem' : ∀ x ∈ l', inGrid g x := by
      intro x hx
      exact hmem x (by rw [hdecomp]; exact List.mem_append.mpr (Or.inl hx))
    have hhead' : l'.head? = some a := by
      rw [hdecomp] at hhead
      rw [← hhead]
      rcases l' with _ | ⟨zz, tt⟩
      · simp at hne'
      · simp
    refine ⟨l', u, hdecomp, ⟨⟨hne', hmem', hch'.1⟩, hhead', hu⟩, hch'.2,
      hmem' u (List.getLast_mem hne'), ?_⟩
    rw [hdecomp]
    exact pathCost_append_one g l' u c hu

/-! ## The search-loop invariant (Dijkstra with lazy deletion) -/

theorem adj4_comm {a b : Nat × Nat} (h : adj4 a b) : adj4 b a := by
  obtain ⟨a1, a2⟩ := a
  obtain ⟨b1, b2⟩ := b
  simp only [adj4] at *
  omega

theorem adj4_ne {a b : Nat × Nat} (h : adj4 a b) : ¬(a = b) := by
  obtain ⟨a1, a2⟩ := a
  obtain ⟨b1, b2⟩ := b
  simp only [adj4, Prod.mk.injEq] at *
  omega

/-- An in-grid 4-neighbor of `(px, py)` is one of the four cells the loop
body examines, with the corresponding bounds guard necessarily true. -/
theorem adj4_cases {px py nx ny : Nat} (h : adj4 (px, py) (nx, ny)) :
    (0 < px ∧ nx = px - 1 ∧ ny = py) ∨ (0 < py ∧ nx = px ∧ ny = py - 1) ∨
    (nx = px + 1 ∧ ny = py) ∨ (nx = px ∧ ny = py + 1) := by
  simp only [adj4] at h
  omega

/-- Well-formedness of the parent map relative to the grid. -/
def WFpixp (pixs : Pix) (p : Pix) : Prop :=
  p.w = pixs.w ∧ p.h = pixs.h ∧ p.d = 8 ∧ p.data.length = pixs.w * pixs.h

instance (pixs p : Pix) : Decidable (WFpixp pixs p) :=
  inferInstanceAs (Decidable (p.w = pixs.w ∧ p.h = pixs.h ∧ p.d = 8 ∧
    p.data.length = pixs.w * pixs.h))

/-- Every neighbor of `(x, y)` has been relaxed against its distance: the
state one is in after expanding a popped entry whose distance equals the
cell's recorded distance. -/
def cellProcessed (pixs : Pix) (s : GState) (x y : Nat) : Prop :=
  ∀ nx < pixs.w, ∀ ny < pixs.h, adj4 (x, y) (nx, ny) →
    pixGetD s.pixr nx ny ≤ pixGetD s.pixr x y + edgeCost pixs (x, y) (nx, ny)

instance (pixs : Pix) (s : GState) (x y : Nat) :
    Decidable (cellProcessed pixs s x y) := by
  unfold cellProcessed
  infer_instance

/-- The frontier holds an entry for `(x, y)` carrying exactly the cell's
current recorded distance. -/
def cellWitness (s : GState) (x y : Nat) : Prop :=
  ∃ e ∈ s.heap, e.x = x ∧ e.y = y ∧ e.distance = pixGetD s.pixr x y

instance (s : GState) (x y : Nat) : Decidable (cellWitness s x y) := by
  unfold cellWitness
  infer_instance

/-- Per-cell invariant of the search loop: a finitely-distanced cell either
has a fresh frontier entry or has already had all its neighbors relaxed. -/
def cellInvAt (pixs : Pix) (s : GState) (x y : Nat) : Prop :=
  cellWitness s x y ∨ cellProcessed pixs s x y

instance (pixs : Pix) (s : GState) (x y : Nat) :
    Decidable (cellInvAt pixs s x y) := by
  unfold cellInvAt
  infer_instance

/-- What the loop invariant demands of each frontier entry: on-grid
coordinates, the elevation recorded at push time, a distance at least the
cell's current recorded distance, below the sentinel, and at least the true
shortest-path distance from the start. -/
def heapElemOK (pixs : Pix) (xi yi : Nat) (t : GState) (e : MazeEl) : Prop :=
  e.x < pixs.w ∧ e.y < pixs.h ∧ e.val = pixGetD pixs e.x e.y ∧
  pixGetD t.pixr e.x e.y ≤ e.distance ∧ e.distance < MAXD ∧
  sInf (costSet pixs (xi, yi) (e.x, e.y)) ≤ e.distance

/-- The full invariant of the searchGrayMaze loop state. -/
structure SInv (pixs : Pix) (xi yi xf yf : Nat) (s : GState) : Prop where
  wfr : WFpixr pixs s.pixr
  wfp : WFpixp pixs s.pixp
  startIn : xi < pixs.w ∧ yi < pixs.h
  startZero : pixGetD s.pixr xi yi = 0
  zeroOnly : ∀ x < pixs.w, ∀ y < pixs.h, pixGetD s.pixr x y = 0 → x = xi ∧ y = yi
  heapElems : ∀ e ∈ s.heap, heapElemOK pixs xi yi s e
  lowBound : ∀ x < pixs.w, ∀ y < pixs.h, pixGetD s.pixr x y < MAXD →
    sInf (costSet pixs (xi, yi) (x, y)) ≤ pixGetD s.pixr x y
  cellInv : ∀ x < pixs.w, ∀ y < pixs.h, pixGetD s.pixr x y < MAXD →
    cellInvAt pixs s x y
  parentMax : ∀ x < pixs.w, ∀ y < pixs.h, ¬(x = xi ∧ y = yi) →
    pixGetD s.pixr x y = MAXD → pixGetD s.pixp x y = 0
  parentInv : ∀ x < pixs.w, ∀ y < pixs.h, ¬(x = xi ∧ y = yi) →
    pixGetD s.pixr x y < MAXD →
    inGrid pixs (moveToParent (pixGetD s.pixp x y) x y) ∧
    adj4 (x, y) (moveToParent (pixGetD s.pixp x y) x y) ∧
    pixGetD s.pixr (moveToParent (pixGetD s.pixp x y) x y).1
        (moveToParent (pixGetD s.pixp x y) x y).2 +
      edgeCost pixs (moveToParent (pixGetD s.pixp x y) x y) (x, y) ≤
      pixGetD s.pixr x y
  goalEntry : xf < pixs.w → yf < pixs.h → pixGetD s.pixr xf yf < MAXD →
    ∃ e ∈ s.heap, e.x = xf ∧ e.y = yf

/-- The loop invariant with the popped cell's per-cell invariant carved out
(it is restored at the end of the expansion step). -/
structure PartInv (pixs : Pix) (xi yi xf yf : Nat) (elp : MazeEl)
    (t : GState) : Prop where
  wfr : WFpixr pixs t.pixr
  wfp : WFpixp pixs t.pixp
  startIn : xi < pixs.w ∧ yi < pixs.h
  startZero : pixGetD t.pixr xi yi = 0
  zeroOnly : ∀ x < pixs.w, ∀ y < pixs.h, pixGetD t.pixr x y = 0 → x = xi ∧ y = yi
  heapElems : ∀ e ∈ t.heap, heapElemOK pixs xi yi t e
  lowBound : ∀ x < pixs.w, ∀ y < pixs.h, pixGetD t.pixr x y < MAXD →
    sInf (costSet pixs (xi, yi) (x, y)) ≤ pixGetD t.pixr x y
  cellInv : ∀ x < pixs.w, ∀ y < pixs.h, pixGetD t.pixr x y < MAXD →
    ¬(x = elp.x ∧ y = elp.y) → cellInvAt pixs t x y
  parentMax : ∀ x < pixs.w, ∀ y < pixs.h, ¬(x = xi ∧ y = yi) →
    pixGetD t.pixr x y = MAXD → pixGetD t.pixp x y = 0
  parentInv : ∀ x < pixs.w, ∀ y < pixs.h, ¬(x = xi ∧ y = yi) →
    pixGetD t.pixr x y < MAXD →
    inGrid pixs (moveToParent (pixGetD t.pixp x y) x y) ∧
    adj4 (x, y) (moveToParent (pixGetD t.pixp x y) x y) ∧
    pixGetD t.pixr (moveToParent (pixGetD t.pixp x y) x y).1
        (moveToParent (pixGetD t.pixp x y) x y).2 +
      edgeCost pixs (moveToParent (pixGetD t.pixp x y) x y) (x, y) ≤
      pixGetD t.pixr x y
  goalEntry : xf < pixs.w → yf < pixs.h → pixGetD t.pixr xf yf < MAXD →
    ∃ e ∈ t.heap, e.x = xf ∧ e.y = yf

/-! ## Pointwise effect of one relaxation -/

theorem relax_not_fired (pixs : Pix) (dp sv nx ny dir : Nat) (t : GState)
    (hg : ¬(dp + stepCost sv (pixGetD pixs nx ny) < pixGetD t.pixr nx ny)) :
    relax pixs dp sv nx ny dir t = t := by
  unfold relax
  dsimp only
  rw [if_neg hg]

theorem relax_dmap_ne (pixs : Pix) (dp sv nx ny dir : Nat) (t : GState)
    (x y : Nat) (hxy : ¬(nx = x ∧ ny = y)) :
    pixGetD (relax pixs dp sv nx ny dir t).pixr x y = pixGetD t.pixr x y := by
  unfold relax
  dsimp only
  split
  · exact pixGetD_set_ne _ _ _ _ _ _ hxy
  · rfl

theorem relax_pmap_ne (pixs : Pix) (dp sv nx ny dir : Nat) (t : GState)
    (x y : Nat) (hxy : ¬(nx = x ∧ ny = y)) :
    pixGetD (relax pixs dp sv nx ny dir t).pixp x y = pixGetD t.pixp x y := by
  unfold relax
  dsimp only
  split
  · exact pixGetD_set_ne _ _ _ _ _ _ hxy
  · rfl

theorem relax_fired (pixs : Pix) (dp sv nx ny dir : Nat) (t : GState)
    (hwf : WFpixr pixs t.pixr) (hwfp : WFpixp pixs t.pixp) (hdir : dir < 2 ^ 8)
    (hg : dp + stepCost sv (pixGetD pixs nx ny) < pixGetD t.pixr nx ny) :
    nx < pixs.w ∧ ny < pixs.h ∧
    pixGetD (relax pixs dp sv nx ny dir t).pixr nx ny
      = dp + stepCost sv (pixGetD pixs nx ny) ∧
    pixGetD (relax pixs dp sv nx ny dir t).pixp nx ny = dir ∧
    (relax pixs dp sv nx ny dir t).heap
      = t.heap ++ [⟨dp + stepCost sv (pixGetD pixs nx ny), nx, ny,
          pixGetD pixs nx ny, 0⟩] := by
  obtain ⟨hw, hh, hd, hlen, hvals⟩ := hwf
  obtain ⟨hpw, hph, hpd, hplen⟩ := hwfp
  set dist := dp + stepCost sv (pixGetD pixs nx ny) with hdist
  have hin : nx < t.pixr.w ∧ ny < t.pixr.h := by
    by_contra hoob
    rw [pixGetD_oob _ _ _ hoob] at hg
    omega
  have hvlt : pixGetD t.pixr nx ny < 2 ^ 32 :=
    pixGetD_lt_of_data _ _ _ _ (by norm_num) hvals
  have hdlt : dist < 2 ^ 32 := by omega
  refine ⟨hw ▸ hin.1, hh ▸ hin.2, ?_, ?_, ?_⟩
  · unfold relax
    dsimp only
    rw [if_pos hg]
    dsimp only
    rw [pixGetD_set_self _ _ _ _ hin.1 hin.2 (by rw [hlen, hw, hh]), hd]
    exact Nat.mod_eq_of_lt hdlt
  · unfold relax
    dsimp only
    rw [if_pos hg]
    dsimp only
    have hinp : nx < t.pixp.w ∧ ny < t.pixp.h := by
      constructor
      · rw [hpw, ← hw]; exact hin.1
      · rw [hph, ← hh]; exact hin.2
    rw [pixGetD_set_self _ _ _ _ hinp.1 hinp.2 (by rw [hplen, hpw, hph]), hpd]
    exact Nat.mod_eq_of_lt hdir
  · unfold relax
    dsimp only
    rw [if_pos hg]
    unfold pheapAdd
    rfl

theorem relax_dmap_mono (pixs : Pix) (dp sv nx ny dir : Nat) (t : GState)
    (hwf : WFpixr pixs t.pixr) (hwfp : WFpixp pixs t.pixp) (hdir : dir < 2 ^ 8)
    (x y : Nat) :
    pixGetD (relax pixs dp sv nx ny dir t).pixr x y ≤ pixGetD t.pixr x y := by
  by_cases hg : dp + stepCost sv (pixGetD pixs nx ny) < pixGetD t.pixr nx ny
  · by_cases hxy : nx = x ∧ ny = y
    · obtain ⟨h1, h2⟩ := hxy
      subst h1
      subst h2
      obtain ⟨_, _, hset, _, _⟩ := relax_fired pixs dp sv nx ny dir t hwf hwfp hdir hg
      rw [hset]
      omega
    · rw [relax_dmap_ne _ _ _ _ _ _ _ _ _ hxy]
  · rw [relax_not_fired _ _ _ _ _ _ _ hg]

theorem relax_target_bound (pixs : Pix) (dp sv nx ny dir : Nat) (t : GState)
    (hwf : WFpixr pixs t.pixr) (hwfp : WFpixp pixs t.pixp) (hdir : dir < 2 ^ 8) :
    pixGetD (relax pixs dp sv nx ny dir t).pixr nx ny
      ≤ dp + stepCost sv (pixGetD pixs nx ny) := by
  by_cases hg : dp + stepCost sv (pixGetD pixs nx ny) < pixGetD t.pixr nx ny
  · obtain ⟨_, _, hset, _, _⟩ := relax_fired pixs dp sv nx ny dir t hwf hwfp hdir hg
    rw [hset]
  · rw [relax_not_fired _ _ _ _ _ _ _ hg]
    omega

theorem relax_wfp (pixs : Pix) (dp sv nx ny dir : Nat) (t : GState)
    (hwfp : WFpixp pixs t.pixp) :
    WFpixp pixs (relax pixs dp sv nx ny dir t).pixp := by
  unfold relax
  dsimp only
  split
  · exact ⟨by rw [pixSetPixel_w]; exact hwfp.1, by rw [pixSetPixel_h]; exact hwfp.2.1,
      by rw [pixSetPixel_d]; exact hwfp.2.2.1, by rw [pixSetPixel_len]; exact hwfp.2.2.2⟩
  · exact hwfp

theorem relax_heap_super (pixs : Pix) (dp sv nx ny dir : Nat) (t : GState) :
    ∀ e ∈ t.heap, e ∈ (relax pixs dp sv nx ny dir t).heap := by
  intro e he
  unfold relax
  dsimp only
  split
  · exact List.mem_append.mpr (Or.inl he)
  · exact he

theorem relax_heap_sub (pixs : Pix) (dp sv nx ny dir : Nat) (t : GState) :
    ∀ e ∈ (relax pixs dp sv nx ny dir t).heap,
      e ∈ t.heap ∨
      (e = ⟨dp + stepCost sv (pixGetD pixs nx ny), nx, ny, pixGetD pixs nx ny, 0⟩ ∧
        dp + stepCost sv (pixGetD pixs nx ny) < pixGetD t.pixr nx ny) := by
  intro e he
  unfold relax at he
  dsimp only at he
  split at he
  · rename_i hg
    rcases List.mem_append.mp he with he | he
    · exact Or.inl he
    · exact Or.inr ⟨List.mem_singleton.mp he, hg⟩
  · exact Or.inl he

/-- One guarded neighbor relaxation preserves the partial loop invariant.
`(nx, ny)` is the neighbor the loop body examines, `dir` the direction code
it would store (pointing back at the popped cell). -/
theorem relax_pres (pixs : Pix) (xi yi xf yf : Nat) (elp : MazeEl) (t : GState)
    (nx ny dir : Nat)
    (hdm : pixGetD t.pixr elp.x elp.y ≤ elp.distance)
    (hdelta : sInf (costSet pixs (xi, yi) (elp.x, elp.y)) ≤ elp.distance)
    (hval : elp.val = pixGetD pixs elp.x elp.y)
    (helpin : elp.x < pixs.w ∧ elp.y < pixs.h)
    (hadj : adj4 (elp.x, elp.y) (nx, ny))
    (hdir : moveToParent dir nx ny = (elp.x, elp.y))
    (hdirlt : dir < 2 ^ 8)
    (hP : PartInv pixs xi yi xf yf elp t) :
    PartInv pixs xi yi xf yf elp (relax pixs elp.distance elp.val nx ny dir t) := by
  by_cases hg : elp.distance + stepCost elp.val (pixGetD pixs nx ny) <
      pixGetD t.pixr nx ny
  case neg =>
    rw [relax_not_fired _ _ _ _ _ _ _ hg]
    exact hP
  case pos =>
  obtain ⟨hnbx, hnby, hdset, hpset, hhset⟩ :=
    relax_fired pixs elp.distance elp.val nx ny dir t hP.wfr hP.wfp hdirlt hg
  set t' := relax pixs elp.distance elp.val nx ny dir t with ht'
  set dist := elp.distance + stepCost elp.val (pixGetD pixs nx ny) with hdistdef
  have hmono : ∀ x y, pixGetD t'.pixr x y ≤ pixGetD t.pixr x y :=
    relax_dmap_mono pixs elp.distance elp.val nx ny dir t hP.wfr hP.wfp hdirlt
  have hne_r : ∀ x y, ¬(nx = x ∧ ny = y) →
      pixGetD t'.pixr x y = pixGetD t.pixr x y :=
    fun x y hxy => relax_dmap_ne pixs _ _ _ _ _ t x y hxy
  have hne_p : ∀ x y, ¬(nx = x ∧ ny = y) →
      pixGetD t'.pixp x y = pixGetD t.pixp x y :=
    fun x y hxy => relax_pmap_ne pixs _ _ _ _ _ t x y hxy
  have hwfr' : WFpixr pixs t'.pixr :=
    (relax_step pixs elp.distance elp.val nx ny dir t hP.wfr).1
  have hwfp' : WFpixp pixs t'.pixp := relax_wfp pixs _ _ _ _ _ t hP.wfp
  have hedge : stepCost elp.val (pixGetD pixs nx ny)
      = edgeCost pixs (elp.x, elp.y) (nx, ny) := by
    rw [hval]; rfl
  have hdeltan : sInf (costSet pixs (xi, yi) (nx, ny)) ≤ dist := by
    have htri := sInf_triangle pixs (xi, yi) (elp.x, elp.y) (nx, ny)
      hP.startIn helpin ⟨hnbx, hnby⟩ hadj
    rw [← hedge] at htri
    omega
  have hvlt : pixGetD t.pixr nx ny ≤ MAXD := by
    have := pixGetD_lt_of_data t.pixr nx ny (2 ^ 32) (by norm_num) hP.wfr.2.2.2.2
    unfold MAXD
    omega
  have hdmax : dist < MAXD := by omega
  have hd1 : 1 ≤ stepCost elp.val (pixGetD pixs nx ny) := one_le_stepCost _ _
  have hnp : ¬(nx = elp.x ∧ ny = elp.y) := by
    intro hc
    exact adj4_ne hadj (by rw [Prod.mk.injEq]; exact ⟨hc.1.symm, hc.2.symm⟩)
  refine ⟨hwfr', hwfp', hP.startIn, ?_, ?_, ?_, ?_, ?_, ?_, ?_, ?_⟩
  · -- startZero
    by_cases hs : nx = xi ∧ ny = yi
    · exfalso
      rw [hs.1, hs.2, hP.startZero] at hg
      omega
    · rw [hne_r xi yi hs]
      exact hP.startZero
  · -- zeroOnly
    intro x hx y hy h0
    by_cases hxy : nx = x ∧ ny = y
    · exfalso
      rw [← hxy.1, ← hxy.2, hdset] at h0
      omega
    · rw [hne_r x y hxy] at h0
      exact hP.zeroOnly x hx y hy h0
  · -- heapElems
    intro e he
    rcases relax_heap_sub pixs _ _ _ _ _ t e he with he' | ⟨heq, _⟩
    · obtain ⟨h1, h2, h3, h4, h5, h6⟩ := hP.heapElems e he'
      exact ⟨h1, h2, h3, le_trans (hmono e.x e.y) h4, h5, h6⟩
    · subst heq
      refine ⟨hnbx, hnby, rfl, ?_, hdmax, hdeltan⟩
      dsimp only
      rw [hdset]
  · -- lowBound
    intro x hx y hy hlt
    by_cases hxy : nx = x ∧ ny = y
    · rw [← hxy.1, ← hxy.2, hdset]
      exact hdeltan
    · rw [hne_r x y hxy] at hlt ⊢
      exact hP.lowBound x hx y hy hlt
  · -- cellInv
    intro x hx y hy hlt hnotpop
    by_cases hxy : nx = x ∧ ny = y
    · obtain ⟨h1, h2⟩ := hxy
      subst h1
      subst h2
      left
      refine ⟨⟨dist, nx, ny, pixGetD pixs nx ny, 0⟩, ?_, rfl, rfl, ?_⟩
      · rw [hhset]
        exact List.mem_append.mpr (Or.inr (List.mem_singleton_self _))
      · dsimp only
        rw [hdset]
    · have hdm' := hne_r x y hxy
      rw [hdm'] at hlt
      rcases hP.cellInv x hx y hy hlt hnotpop with hw | hp
      · left
        obtain ⟨e, he, h1, h2, h3⟩ := hw
        exact ⟨e, relax_heap_super pixs _ _ _ _ _ t e he, h1, h2, by rw [h3, hdm']⟩
      · right
        intro nx' hnx' ny' hny' hadj'
        have := hp nx' hnx' ny' hny' hadj'
        have hm := hmono nx' ny'
        rw [hdm']
        omega
  · -- parentMax
    intro x hx y hy hnots hmax
    by_cases hxy : nx = x ∧ ny = y
    · exfalso
      rw [← hxy.1, ← hxy.2, hdset] at hmax
      omega
    · rw [hne_p x y hxy]
      rw [hne_r x y hxy] at hmax
      exact hP.parentMax x hx y hy hnots hmax
  · -- parentInv
    intro x hx y hy hnots hlt
    by_cases hxy : nx = x ∧ ny = y
    · obtain ⟨h1, h2⟩ := hxy
      subst h1
      subst h2
      rw [hpset, hdir]
      refine ⟨helpin, adj4_comm hadj, ?_⟩
      rw [hdset, hne_r elp.x elp.y hnp]
      show pixGetD t.pixr elp.x elp.y + edgeCost pixs (elp.x, elp.y) (nx, ny) ≤ dist
      rw [← hedge]
      omega
    · rw [hne_p x y hxy]
      rw [hne_r x y hxy] at hlt
      obtain ⟨g1, g2, g3⟩ := hP.parentInv x hx y hy hnots hlt
      refine ⟨g1, g2, ?_⟩
      have hm := hmono (moveToParent (pixGetD t.pixp x y) x y).1
        (moveToParent (pixGetD t.pixp x y) x y).2
      rw [hne_r x y hxy]
      omega
  · -- goalEntry
    intro hxf hyf hlt
    by_cases hxy : nx = xf ∧ ny = yf
    · refine ⟨⟨dist, nx, ny, pixGetD pixs nx ny, 0⟩, ?_, hxy.1, hxy.2⟩
      rw [hhset]
      exact List.mem_append.mpr (Or.inr (List.mem_singleton_self _))
    · rw [hne_r xf yf hxy] at hlt
      obtain ⟨e, he, h1, h2⟩ := hP.goalEntry hxf hyf hlt
      exact ⟨e, relax_heap_super pixs _ _ _ _ _ t e he, h1, h2⟩

/-- A bounds-guarded relaxation stage of the loop body preserves the partial
invariant, leaves the popped cell's distance unchanged, and never increases
any recorded distance. -/
theorem stage_pres (pixs : Pix) (xi yi xf yf : Nat) (elp : MazeEl) (t : GState)
    (c : Prop) [Decidable c] (nx ny dir : Nat)
    (hc : c → adj4 (elp.x, elp.y) (nx, ny) ∧ moveToParent dir nx ny = (elp.x, elp.y))
    (hdirlt : dir < 2 ^ 8)
    (hval : elp.val = pixGetD pixs elp.x elp.y)
    (helpin : elp.x < pixs.w ∧ elp.y < pixs.h)
    (hdelta : sInf (costSet pixs (xi, yi) (elp.x, elp.y)) ≤ elp.distance)
    (hdm : pixGetD t.pixr elp.x elp.y ≤ elp.distance)
    (hP : PartInv pixs xi yi xf yf elp t) :
    PartInv pixs xi yi xf yf elp
      (if c then relax pixs elp.distance elp.val nx ny dir t else t) ∧
    pixGetD (if c then relax pixs elp.distance elp.val nx ny dir t else t).pixr
      elp.x elp.y = pixGetD t.pixr elp.x elp.y ∧
    (∀ x y,
      pixGetD (if c then relax pixs elp.distance elp.val nx ny dir t else t).pixr
        x y ≤ pixGetD t.pixr x y) := by
  split
  · rename_i hcc
    obtain ⟨hadj, hdir⟩ := hc hcc
    have hnp : ¬(nx = elp.x ∧ ny = elp.y) := by
      intro hcon
      exact adj4_ne hadj (by rw [Prod.mk.injEq]; exact ⟨hcon.1.symm, hcon.2.symm⟩)
    exact ⟨relax_pres pixs xi yi xf yf elp t nx ny dir hdm hdelta hval helpin
        hadj hdir hdirlt hP,
      relax_dmap_ne pixs _ _ _ _ _ t elp.x elp.y hnp,
      relax_dmap_mono pixs _ _ _ _ _ t hP.wfr hP.wfp hdirlt⟩
  · exact ⟨hP, rfl, fun x y => le_refl _⟩

/-- The four neighbor coordinates are adjacent to the popped cell, and the
stored direction codes point from each neighbor back to it. -/
theorem adj4_west_nbr (x y : Nat) (hx : 0 < x) : adj4 (x, y) (x - 1, y) :=
  Or.inr ⟨rfl, Or.inr (by omega)⟩

theorem adj4_north_nbr (x y : Nat) (hy : 0 < y) : adj4 (x, y) (x, y - 1) :=
  Or.inl ⟨rfl, Or.inr (by omega)⟩

theorem adj4_east_nbr (x y : Nat) : adj4 (x, y) (x + 1, y) :=
  Or.inr ⟨rfl, Or.inl rfl⟩

theorem adj4_south_nbr (x y : Nat) : adj4 (x, y) (x, y + 1) :=
  Or.inl ⟨rfl, Or.inl rfl⟩

theorem moveToParent_east (x y : Nat) (hx : 0 < x) :
    moveToParent DIR_EAST (x - 1) y = (x, y) := by
  unfold moveToParent DIR_NORTH DIR_SOUTH DIR_EAST DIR_WEST
  norm_num
  rw [Nat.sub_add_cancel hx]

theorem moveToParent_south (x y : Nat) (hy : 0 < y) :
    moveToParent DIR_SOUTH x (y - 1) = (x, y) := by
  unfold moveToParent DIR_NORTH DIR_SOUTH
  norm_num
  rw [Nat.sub_add_cancel hy]

theorem moveToParent_west (x y : Nat) :
    moveToParent DIR_WEST (x + 1) y = (x, y) := by
  unfold moveToParent DIR_NORTH DIR_SOUTH DIR_EAST DIR_WEST
  norm_num

theorem moveToParent_north (x y : Nat) :
    moveToParent DIR_NORTH x (y + 1) = (x, y) := by
  unfold moveToParent DIR_NORTH
  norm_num

/-- Expanding a popped non-goal entry restores the full loop invariant. -/
theorem SInv_step (pixs : Pix) (xi yi xf yf : Nat) (s : GState) (elp : MazeEl)
    (rest : List MazeEl)
    (hS : SInv pixs xi yi xf yf s)
    (hr : pheapRemove s.heap = some (elp, rest))
    (hng : ¬(elp.x = xf ∧ elp.y = yf)) :
    SInv pixs xi yi xf yf
      (expand pixs pixs.w pixs.h elp (GState.mk s.pixr s.pixp rest)) := by
  obtain ⟨hex, hey, hval, hdm0, hmax, hdelta⟩ := hS.heapElems elp (pheapRemove_mem hr)
  have hmin := pheapRemove_min hr
  set s0 : GState := GState.mk s.pixr s.pixp rest with hs0
  have hP0 : PartInv pixs xi yi xf yf elp s0 := by
    refine ⟨hS.wfr, hS.wfp, hS.startIn, hS.startZero, hS.zeroOnly, ?_, hS.lowBound,
      ?_, hS.parentMax, hS.parentInv, ?_⟩
    · intro e he
      exact hS.heapElems e (pheapRemove_rest_mem hr e he)
    · intro x hx y hy hlt hnotpop
      rcases hS.cellInv x hx y hy hlt with hw | hp
      · left
        obtain ⟨e, he, h1, h2, h3⟩ := hw
        have hne : e ≠ elp := by
          intro hcon
          apply hnotpop
          rw [← h1, ← h2, hcon]
          exact ⟨rfl, rfl⟩
        exact ⟨e, pheapRemove_mem_rest hr e he hne, h1, h2, h3⟩
      · right
        exact hp
    · intro hxf hyf hlt
      obtain ⟨e, he, h1, h2⟩ := hS.goalEntry hxf hyf hlt
      have hne : e ≠ elp := by
        intro hcon
        apply hng
        rw [← hcon]
        exact ⟨h1, h2⟩
      exact ⟨e, pheapRemove_mem_rest hr e he hne, h1, h2⟩
  -- chain the four guarded relaxation stages
  have hst1 := stage_pres pixs xi yi xf yf elp s0 (0 < elp.x)
    (elp.x - 1) elp.y DIR_EAST
    (fun hcc => ⟨adj4_west_nbr elp.x elp.y hcc, moveToParent_east elp.x elp.y hcc⟩)
    (by norm_num [DIR_EAST]) hval ⟨hex, hey⟩ hdelta hdm0 hP0
  set s1 := if 0 < elp.x then
    relax pixs elp.distance elp.val (elp.x - 1) elp.y DIR_EAST s0 else s0 with hs1
  obtain ⟨hP1, hpop1, hmono1⟩ := hst1
  have hst2 := stage_pres pixs xi yi xf yf elp s1 (0 < elp.y)
    elp.x (elp.y - 1) DIR_SOUTH
    (fun hcc => ⟨adj4_north_nbr elp.x elp.y hcc, moveToParent_south elp.x elp.y hcc⟩)
    (by norm_num [DIR_SOUTH]) hval ⟨hex, hey⟩ hdelta (by rw [hpop1]; exact hdm0) hP1
  set s2 := if 0 < elp.y then
    relax pixs elp.distance elp.val elp.x (elp.y - 1) DIR_SOUTH s1 else s1 with hs2
  obtain ⟨hP2, hpop2, hmono2⟩ := hst2
  have hst3 := stage_pres pixs xi yi xf yf elp s2 (elp.x < pixs.w - 1)
    (elp.x + 1) elp.y DIR_WEST
    (fun _ => ⟨adj4_east_nbr elp.x elp.y, moveToParent_west elp.x elp.y⟩)
    (by norm_num [DIR_WEST]) hval ⟨hex, hey⟩ hdelta
    (by rw [hpop2, hpop1]; exact hdm0) hP2
  set s3 := if elp.x < pixs.w - 1 then
    relax pixs elp.distance elp.val (elp.x + 1) elp.y DIR_WEST s2 else s2 with hs3
  obtain ⟨hP3, hpop3, hmono3⟩ := hst3
  have hst4 := stage_pres pixs xi yi xf yf elp s3 (elp.y < pixs.h - 1)
    elp.x (elp.y + 1) DIR_NORTH
    (fun _ => ⟨adj4_south_nbr elp.x elp.y, moveToParent_north elp.x elp.y⟩)
    (by norm_num [DIR_NORTH]) hval ⟨hex, hey⟩ hdelta
    (by rw [hpop3, hpop2, hpop1]; exact hdm0) hP3
  set s4 := if elp.y < pixs.h - 1 then
    relax pixs elp.distance elp.val elp.x (elp.y + 1) DIR_NORTH s3 else s3 with hs4
  obtain ⟨hP4, hpop4, hmono4⟩ := hst4
  have hexpand : expand pixs pixs.w pixs.h elp s0 = s4 := by
    rw [hs4, hs3, hs2, hs1]
    rfl
  rw [hexpand]
  have hpop : pixGetD s4.pixr elp.x elp.y = pixGetD s.pixr elp.x elp.y := by
    rw [hpop4, hpop3, hpop2, hpop1]
  have hmono : ∀ x y, pixGetD s4.pixr x y ≤ pixGetD s.pixr x y := by
    intro x y
    exact le_trans (hmono4 x y)
      (le_trans (hmono3 x y) (le_trans (hmono2 x y) (hmono1 x y)))
  have hproc : ∀ nx < pixs.w, ∀ ny < pixs.h, adj4 (elp.x, elp.y) (nx, ny) →
      pixGetD s4.pixr nx ny ≤
        elp.distance + edgeCost pixs (elp.x, elp.y) (nx, ny) := by
    intro nx hnx ny hny hadj
    have hedge : stepCost elp.val (pixGetD pixs nx ny)
        = edgeCost pixs (elp.x, elp.y) (nx, ny) := by
      rw [hval]; rfl
    rcases adj4_cases hadj with ⟨hg, h1, h2⟩ | ⟨hg, h1, h2⟩ | ⟨h1, h2⟩ | ⟨h1, h2⟩
    · subst h1
      subst h2
      have hb : pixGetD s1.pixr (elp.x - 1) elp.y ≤
          elp.distance + stepCost elp.val (pixGetD pixs (elp.x - 1) elp.y) := by
        rw [hs1, if_pos hg]
        exact relax_target_bound pixs _ _ _ _ _ s0 hP0.wfr hP0.wfp
          (by norm_num [DIR_EAST])
      rw [← hedge]
      exact le_trans (hmono4 _ _) (le_trans (hmono3 _ _) (le_trans (hmono2 _ _) hb))
    · subst h1
      subst h2
      have hb : pixGetD s2.pixr elp.x (elp.y - 1) ≤
          elp.distance + stepCost elp.val (pixGetD pixs elp.x (elp.y - 1)) := by
        rw [hs2, if_pos hg]
        exact relax_target_bound pixs _ _ _ _ _ s1 hP1.wfr hP1.wfp
          (by norm_num [DIR_SOUTH])
      rw [← hedge]
      exact le_trans (hmono4 _ _) (le_trans (hmono3 _ _) hb)
    · subst h1
      subst h2
      have hg : elp.x < pixs.w - 1 := by omega
      have hb : pixGetD s3.pixr (elp.x + 1) elp.y ≤
          elp.distance + stepCost elp.val (pixGetD pixs (elp.x + 1) elp.y) := by
        rw [hs3, if_pos hg]
        exact relax_target_bound pixs _ _ _ _ _ s2 hP2.wfr hP2.wfp
          (by norm_num [DIR_WEST])
      rw [← hedge]
      exact le_trans (hmono4 _ _) hb
    · subst h1
      subst h2
      have hg : elp.y < pixs.h - 1 := by omega
      have hb : pixGetD s4.pixr elp.x (elp.y + 1) ≤
          elp.distance + stepCost elp.val (pixGetD pixs elp.x (elp.y + 1)) := by
        rw [hs4, if_pos hg]
        exact relax_target_bound pixs _ _ _ _ _ s3 hP3.wfr hP3.wfp
          (by norm_num [DIR_NORTH])
      rw [← hedge]
      exact hb
  refine ⟨hP4.wfr, hP4.wfp, hP4.startIn, hP4.startZero, hP4.zeroOnly,
    hP4.heapElems, hP4.lowBound, ?_, hP4.parentMax, hP4.parentInv, hP4.goalEntry⟩
  intro x hx y hy hlt
  by_cases hpopc : x = elp.x ∧ y = elp.y
  · right
    rw [hpopc.1, hpopc.2]
    rcases Nat.lt_or_ge (pixGetD s.pixr elp.x elp.y) elp.distance with hstale | hfresh
    · have hltS : pixGetD s.pixr elp.x elp.y < MAXD := by omega
      rcases hS.cellInv elp.x hex elp.y hey hltS with hw | hp
      · exfalso
        obtain ⟨e, he, he1, he2, he3⟩ := hw
        have := hmin e he
        omega
      · intro nx hnx ny hny hadj
        have h1 := hp nx hnx ny hny hadj
        have h2 := hmono nx ny
        rw [hpop]
        omega
    · have hfr : pixGetD s.pixr elp.x elp.y = elp.distance :=
        le_antisymm hdm0 hfresh
      intro nx hnx ny hny hadj
      have h1 := hproc nx hnx ny hny hadj
      rw [hpop, hfr]
      exact h1
  · exact hP4.cellInv x hx y hy hlt hpopc

/-- Reading the freshly initialized distance map: the sentinel everywhere. -/
theorem pixGetD_initAll (w h x y : Nat) (hx : x < w) (hy : y < h) :
    pixGetD (pixSetAll (pixCreate w h 32)) x y = MAXD := by
  unfold pixSetAll pixCreate
  dsimp only
  rw [pixGetD_inb _ _ _ hx hy]
  dsimp only
  rw [List.length_replicate]
  rw [List.getD_eq_getElem _ _ (by rw [List.length_replicate]; exact rowmajor_lt hx hy)]
  rw [List.getElem_replicate]
  rfl

/-- The state searchGrayMaze primes the loop with satisfies the invariant. -/
theorem SInv_init (pixs : Pix) (xi yi xf yf : Nat)
    (hxi : xi < pixs.w) (hyi : yi < pixs.h) :
    SInv pixs xi yi xf yf (initState pixs xi yi) := by
  have hbase : ∀ x y, x < pixs.w → y < pixs.h → ¬(xi = x ∧ yi = y) →
      pixGetD (initState pixs xi yi).pixr x y = MAXD := by
    intro x y hx hy hne
    show pixGetD (pixSetPixel (pixSetAll (pixCreate pixs.w pixs.h 32)) xi yi 0) x y = MAXD
    rw [pixGetD_set_ne _ _ _ _ _ _ hne]
    exact pixGetD_initAll _ _ _ _ hx hy
  have hstart : pixGetD (initState pixs xi yi).pixr xi yi = 0 := by
    show pixGetD (pixSetPixel (pixSetAll (pixCreate pixs.w pixs.h 32)) xi yi 0) xi yi = 0
    rw [pixGetD_set_self (pixSetAll (pixCreate pixs.w pixs.h 32)) xi yi 0 hxi hyi
      (by unfold pixSetAll pixCreate; dsimp only; rw [List.length_replicate, List.length_replicate])]
    exact Nat.zero_mod _
  have hdelta0 : sInf (costSet pixs (xi, yi) (xi, yi)) ≤ 0 :=
    Nat.sInf_le ⟨[(xi, yi)], isGridPath_singleton pixs (xi, yi) ⟨hxi, hyi⟩, rfl⟩
  have hMAXne : (0:Nat) < MAXD := by norm_num [MAXD]
  refine ⟨(initState_wf pixs xi yi).1, ⟨rfl, rfl, rfl, by simp [initState, pixCreate]⟩,
    ⟨hxi, hyi⟩, hstart, ?_, ?_, ?_, ?_, ?_, ?_, ?_⟩
  · -- zeroOnly
    intro x hx y hy h0
    by_cases hne : xi = x ∧ yi = y
    · exact ⟨hne.1.symm, hne.2.symm⟩
    · rw [hbase x y hx hy hne] at h0
      omega
  · -- heapElems
    intro e he
    simp only [initState, List.mem_singleton] at he
    subst he
    exact ⟨hxi, hyi, rfl, by rw [hstart], hMAXne, hdelta0⟩
  · -- lowBound
    intro x hx y hy hlt
    by_cases hne : xi = x ∧ yi = y
    · rw [← hne.1, ← hne.2, hstart]
      exact hdelta0
    · rw [hbase x y hx hy hne] at hlt
      omega
  · -- cellInv
    intro x hx y hy hlt
    by_cases hne : xi = x ∧ yi = y
    · left
      refine ⟨{ distance := 0, x := xi, y := yi, val := pixGetD pixs xi yi, dir := 0 },
        List.mem_singleton_self _, hne.1, hne.2, ?_⟩
      rw [← hne.1, ← hne.2, hstart]
    · rw [hbase x y hx hy hne] at hlt
      omega
  · -- parentMax: the parent map is all zero
    intro x hx y hy _ _
    show pixGetD (pixCreate pixs.w pixs.h 8) x y = 0
    rw [pixGetD_inb (pixCreate pixs.w pixs.h 8) x y hx hy]
    unfold pixCreate
    dsimp only
    rw [List.getD_eq_getElem _ _ (by rw [List.length_replicate]; exact rowmajor_lt hx hy)]
    rw [List.getElem_replicate]
  · -- parentInv: vacuous, every non-start cell is at the sentinel
    intro x hx y hy hnots hlt
    by_cases hne : xi = x ∧ yi = y
    · exact absurd ⟨hne.1.symm, hne.2.symm⟩ hnots
    · rw [hbase x y hx hy hne] at hlt
      omega
  · -- goalEntry
    intro hxf hyf hlt
    by_cases hne : xi = xf ∧ yi = yf
    · exact ⟨{ distance := 0, x := xi, y := yi, val := pixGetD pixs xi yi, dir := 0 },
        List.mem_singleton_self _, hne.1, hne.2⟩
    · rw [hbase xf yf hxf hyf hne] at hlt
      omega

/-- Ddijkstra upper bound at pop time: when an entry of minimal heap cost at
least the goal cell's recorded distance is popped, the goal's recorded
distance is at most the true shortest-path cost. -/
theorem key_upper (pixs : Pix) (xi yi xf yf : Nat) (s : GState)
    (hS : SInv pixs xi yi xf yf s) (k : Nat)
    (hmin : ∀ e ∈ s.heap, k ≤ e.distance)
    (hgk : pixGetD s.pixr xf yf ≤ k)
    (hgin : xf < pixs.w ∧ yf < pixs.h)
    (hdel : sInf (costSet pixs (xi, yi) (xf, yf)) < MAXD) :
    pixGetD s.pixr xf yf ≤ sInf (costSet pixs (xi, yi) (xf, yf)) := by
  have hstartin : inGrid pixs (xi, yi) := ⟨hS.startIn.1, hS.startIn.2⟩
  have main : ∀ (n : Nat) (c : Nat × Nat), inGrid pixs c →
      sInf (costSet pixs (xi, yi) c) ≤ sInf (costSet pixs (xi, yi) (xf, yf)) →
      sInf (costSet pixs (xi, yi) c) = n →
      (pixGetD s.pixr xf yf ≤ sInf (costSet pixs (xi, yi) (xf, yf)) ∨
        pixGetD s.pixr c.1 c.2 ≤ sInf (costSet pixs (xi, yi) c)) := by
    intro n
    induction n using Nat.strong_induction_on with
    | _ n ih =>
      intro c hc hle hn
      by_cases hcs : c = (xi, yi)
      · right
        subst hcs
        rw [hS.startZero]
        omega
      · obtain ⟨l, hl, hcost⟩ := exists_min_path pixs (xi, yi) c hstartin hc
        obtain ⟨l', u, hdec, hl', hadj, hu, hcosteq⟩ :=
          pathFromTo_unsnoc pixs (xi, yi) c l hl hcs
        have hsu : sInf (costSet pixs (xi, yi) u) ≤ pathCost pixs l' :=
          sInf_le_pathCost pixs (xi, yi) u l' hl'
        have htri := sInf_triangle pixs (xi, yi) u c hstartin hu hc hadj
        have hedge1 : 1 ≤ edgeCost pixs u c := one_le_stepCost _ _
        have hueq : sInf (costSet pixs (xi, yi) u) + edgeCost pixs u c
            = sInf (costSet pixs (xi, yi) c) := by omega
        have hult : sInf (costSet pixs (xi, yi) u) < n := by omega
        have hule : sInf (costSet pixs (xi, yi) u) ≤
            sInf (costSet pixs (xi, yi) (xf, yf)) := by omega
        rcases ih _ hult u hu hule rfl with hgoal | hdu
        · exact Or.inl hgoal
        · have hduMAX : pixGetD s.pixr u.1 u.2 < MAXD := by omega
          rcases hS.cellInv u.1 hu.1 u.2 hu.2 hduMAX with hw | hp
          · left
            obtain ⟨e, he, he1, he2, he3⟩ := hw
            have h1 := hmin e he
            rw [he3] at h1
            omega
          · right
            have h2 := hp c.1 hc.1 c.2 hc.2 hadj
            have hee : edgeCost pixs (u.1, u.2) (c.1, c.2) = edgeCost pixs u c := rfl
            rw [hee] at h2
            omega
  rcases main (sInf (costSet pixs (xi, yi) (xf, yf))) (xf, yf)
      ⟨hgin.1, hgin.2⟩ (le_refl _) rfl with h | h
  · exact h
  · exact h

/-- Following the recorded parent directions from any finitely-distanced cell
terminates within `w*h + 1` steps at the start and yields a grid path whose
cost is bounded by the cell's recorded distance. -/
theorem walk_ok (pixs : Pix) (xi yi : Nat) (t : GState)
    (hpar : ∀ x < pixs.w, ∀ y < pixs.h, ¬(x = xi ∧ y = yi) →
      pixGetD t.pixr x y < MAXD →
      inGrid pixs (moveToParent (pixGetD t.pixp x y) x y) ∧
      adj4 (x, y) (moveToParent (pixGetD t.pixp x y) x y) ∧
      pixGetD t.pixr (moveToParent (pixGetD t.pixp x y) x y).1
          (moveToParent (pixGetD t.pixp x y) x y).2 +
        edgeCost pixs (moveToParent (pixGetD t.pixp x y) x y) (x, y) ≤
        pixGetD t.pixr x y) :
    ∀ (n : Nat) (x y : Nat), x < pixs.w → y < pixs.h →
      pixGetD t.pixr x y < MAXD → pixGetD t.pixr x y = n →
      ∀ fuel : Nat,
        (Finset.filter (fun c => pixGetD t.pixr c.1 c.2 ≤ n)
          (Finset.range pixs.w ×ˢ Finset.range pixs.h)).card < fuel →
      ∃ l, walkPath t.pixp xi yi fuel x y = some l ∧
        PathFromTo pixs (x, y) (xi, yi) l ∧
        pathCost pixs l ≤ pixGetD t.pixr x y := by
  intro n
  induction n using Nat.strong_induction_on with
  | _ n ih =>
    intro x y hx hy hmax hval fuel hfuel
    cases fuel with
    | zero => omega
    | succ f =>
      by_cases hxy : x = xi ∧ y = yi
      · refine ⟨[(x, y)], ?_, ?_, ?_⟩
        · simp only [walkPath]
          rw [if_pos hxy]
        · obtain ⟨h1, h2⟩ := hxy
          subst h1
          subst h2
          exact isGridPath_singleton pixs (x, y) ⟨hx, hy⟩
        · rw [show pathCost pixs [(x, y)] = 0 from rfl]
          omega
      · obtain ⟨hpc_in, hpc_adj, hpc_le⟩ := hpar x hx y hy hxy hmax
        have hedge1 : 1 ≤ edgeCost pixs (moveToParent (pixGetD t.pixp x y) x y)
            (x, y) := one_le_stepCost _ _
        set pc := moveToParent (pixGetD t.pixp x y) x y with hpc
        have hpclt : pixGetD t.pixr pc.1 pc.2 < pixGetD t.pixr x y := by omega
        have hpcmax : pixGetD t.pixr pc.1 pc.2 < MAXD := by omega
        have hcard : (Finset.filter
            (fun c => pixGetD t.pixr c.1 c.2 ≤ pixGetD t.pixr pc.1 pc.2)
            (Finset.range pixs.w ×ˢ Finset.range pixs.h)).card <
            (Finset.filter (fun c => pixGetD t.pixr c.1 c.2 ≤ n)
            (Finset.range pixs.w ×ˢ Finset.range pixs.h)).card := by
          apply Finset.card_lt_card
          rw [Finset.ssubset_def]
          constructor
          · intro c hcmem
            rw [Finset.mem_filter] at hcmem ⊢
            exact ⟨hcmem.1, by have := hcmem.2; omega⟩
          · intro hcon
            have hmem : (x, y) ∈ Finset.filter
                (fun c => pixGetD t.pixr c.1 c.2 ≤ n)
                (Finset.range pixs.w ×ˢ Finset.range pixs.h) := by
              rw [Finset.mem_filter, Finset.mem_product]
              refine ⟨⟨Finset.mem_range.mpr hx, Finset.mem_range.mpr hy⟩, ?_⟩
              show pixGetD t.pixr x y ≤ n
              omega
            have hmem2 := hcon hmem
            rw [Finset.mem_filter] at hmem2
            have h2 : pixGetD t.pixr x y ≤ pixGetD t.pixr pc.1 pc.2 := hmem2.2
            omega
        obtain ⟨l, hwalk, hpath, hcost⟩ := ih (pixGetD t.pixr pc.1 pc.2)
          (by omega) pc.1 pc.2 hpc_in.1 hpc_in.2 hpcmax rfl f (by omega)
        obtain ⟨⟨hlne, hlmem, hlch⟩, hlhead, hllast⟩ := hpath
        refine ⟨(x, y) :: l, ?_, ?_, ?_⟩
        · simp only [walkPath]
          rw [if_neg hxy, ← hpc, hwalk]
        · refine ⟨⟨by simp, ?_, ?_⟩, ?_, ?_⟩
          · intro c hc
            rcases List.mem_cons.mp hc with hc | hc
            · rw [hc]; exact ⟨hx, hy⟩
            · exact hlmem c hc
          · rw [List.chain'_cons']
            refine ⟨?_, hlch⟩
            intro b hb
            rw [hlhead] at hb
            simp only [Option.mem_some_iff] at hb
            subst hb
            exact hpc_adj
          · rfl
          · rcases l with _ | ⟨a, rest⟩
            · exact absurd rfl hlne
            · rw [List.getLast?_cons_cons]
              exact hllast
        · rcases l with _ | ⟨a, rest⟩
          · exact absurd rfl hlne
          · have ha : a = (pc.1, pc.2) := by
              have : (a :: rest).head? = some (pc.1, pc.2) := hlhead
              simpa using this
            have hstep : pathCost pixs ((x, y) :: a :: rest)
                = edgeCost pixs (x, y) a + pathCost pixs (a :: rest) := rfl
            rw [hstep, ha]
            have hcomm : edgeCost pixs (x, y) (pc.1, pc.2)
                = edgeCost pixs pc (x, y) := edgeCost_comm _ _ _
            rw [hcomm]
            have hc2 : pathCost pixs ((pc.1, pc.2) :: rest) ≤
                pixGetD t.pixr pc.1 pc.2 := by
              rw [← ha]
              exact hcost
            omega

/-- An unwritten parent-map cell (code 0, `START_LOC`) moves nowhere. -/
theorem moveToParent_zero (x y : Nat) : moveToParent 0 x y = (x, y) := by
  unfold moveToParent DIR_NORTH DIR_SOUTH DIR_EAST DIR_WEST
  norm_num

/-- Any failed validation check makes searchGrayMaze return NULL with the
out-parameter still NULL. -/
theorem searchGrayMaze_guard (pixs : Pix) (xi yi xf yf : Nat) (want : Bool)
    (h : pixs.d ≠ 8 ∨ xi = 0 ∨ pixs.w ≤ xi ∨ yi = 0 ∨ pixs.h ≤ yi) :
    searchGrayMaze pixs xi yi xf yf want = (.err, none) := by
  unfold searchGrayMaze
  by_cases h1 : pixs.d ≠ 8
  · rw [if_pos h1]
  · rw [if_neg h1]
    by_cases h2 : xi = 0 ∨ pixs.w ≤ xi
    · rw [if_pos h2]
    · rw [if_neg h2]
      by_cases h3 : yi = 0 ∨ pixs.h ≤ yi
      · rw [if_pos h3]
      · tauto

/-- With validation passed, the caller-visible outcome is determined by the
reconstruction walk on the loop's final parent map. -/
theorem searchGrayMaze_run (pixs : Pix) (xi yi xf yf : Nat) (want : Bool)
    (hd : pixs.d = 8) (hxi0 : 0 < xi) (hxiw : xi < pixs.w)
    (hyi0 : 0 < yi) (hyih : yi < pixs.h) :
    (searchGrayMaze pixs xi yi xf yf want).1 =
      match walkPath (runLoop pixs xf yf (loopFuel pixs.w pixs.h)
          (initState pixs xi yi)).1.pixp xi yi (walkFuel pixs.w pixs.h) xf yf with
      | none => SearchOut.hang
      | some l => SearchOut.ok l := by
  unfold searchGrayMaze
  rw [if_neg (by omega), if_neg (by omega), if_neg (by omega)]
  dsimp only
  cases hW : walkPath (runLoop pixs xf yf (loopFuel pixs.w pixs.h)
      (initState pixs xi yi)).1.pixp xi yi (walkFuel pixs.w pixs.h) xf yf with
  | none => rfl
  | some l => rfl

/-- Core correctness of a successful search: the returned point list is a
grid path from the goal back to the start whose total cost is at most the
cost of the cheapest grid path from start to goal. -/
theorem searchGrayMaze_ok_core (pixs : Pix) (xi yi xf yf : Nat) (want : Bool)
    (pta : List (Nat × Nat))
    (hres : (searchGrayMaze pixs xi yi xf yf want).1 = .ok pta) :
    PathFromTo pixs (xf, yf) (xi, yi) pta ∧
    pathCost pixs pta ≤ sInf (costSet pixs (xi, yi) (xf, yf)) := by
  have hguards : ¬(pixs.d ≠ 8 ∨ xi = 0 ∨ pixs.w ≤ xi ∨ yi = 0 ∨ pixs.h ≤ yi) := by
    intro hcon
    rw [searchGrayMaze_guard pixs xi yi xf yf want hcon] at hres
    simp at hres
  push_neg at hguards
  obtain ⟨hd8, hxi0, hxiw, hyi0, hyih⟩ := hguards
  have hrun := searchGrayMaze_run pixs xi yi xf yf want hd8
    (by omega) hxiw (by omega) hyih
  rw [hrun] at hres
  set R := runLoop pixs xf yf (loopFuel pixs.w pixs.h) (initState pixs xi yi)
    with hR
  have hwalk : walkPath R.1.pixp xi yi (walkFuel pixs.w pixs.h) xf yf
      = some pta := by
    cases hW : walkPath R.1.pixp xi yi (walkFuel pixs.w pixs.h) xf yf with
    | none => rw [hW] at hres; simp at hres
    | some l =>
      rw [hW] at hres
      simp only [SearchOut.ok.injEq] at hres
      exact congrArg some hres
  have hSinit := SInv_init pixs xi yi xf yf hxiw hyih
  have hloop := runLoop_inv pixs xf yf (SInv pixs xi yi xf yf)
    (fun s elp rest hP hr hng => SInv_step pixs xi yi xf yf s elp rest hP hr hng)
    (loopFuel pixs.w pixs.h) (initState pixs xi yi) hSinit
  have hnofuel := runLoop_not_fuelOut pixs xf yf (loopFuel pixs.w pixs.h)
    (initState pixs xi yi) (initState_wf pixs xi yi).1 (initState_wf pixs xi yi).2
  rw [← hR] at hloop hnofuel
  cases hE : R.2 with
  | fuelOut => exact absurd hE hnofuel
  | exhausted =>
    obtain ⟨hS1, hheap⟩ := hloop.1 hE
    exfalso
    by_cases hgin : xf < pixs.w ∧ yf < pixs.h
    · have hdg : pixGetD R.1.pixr xf yf = MAXD := by
        by_contra hlt
        have hle : pixGetD R.1.pixr xf yf < 2 ^ 32 :=
          pixGetD_lt_of_data _ _ _ _ (by norm_num) hS1.wfr.2.2.2.2
        obtain ⟨e, he, _, _⟩ := hS1.goalEntry hgin.1 hgin.2
          (by unfold MAXD at *; omega)
        rw [hheap] at he
        simp at he
      have hns : ¬(xf = xi ∧ yf = yi) := by
        intro hcon
        rw [hcon.1, hcon.2, hS1.startZero] at hdg
        norm_num [MAXD] at hdg
      have hp0 := hS1.parentMax xf hgin.1 yf hgin.2 hns hdg
      have hstk := @walkPath_stuck R.1.pixp xi yi xf yf
        (by rw [hp0]; exact moveToParent_zero xf yf) hns (walkFuel pixs.w pixs.h)
      rw [hstk] at hwalk
      simp at hwalk
    · have hp0 : pixGetD R.1.pixp xf yf = 0 := by
        apply pixGetD_oob
        rw [hS1.wfp.1, hS1.wfp.2.1]
        exact hgin
      have hns : ¬(xf = xi ∧ yf = yi) := by
        intro hcon
        apply hgin
        rw [hcon.1, hcon.2]
        exact ⟨hxiw, hyih⟩
      have hstk := @walkPath_stuck R.1.pixp xi yi xf yf
        (by rw [hp0]; exact moveToParent_zero xf yf) hns (walkFuel pixs.w pixs.h)
      rw [hstk] at hwalk
      simp at hwalk
  | goalPopped elp =>
    obtain ⟨pre, rest, hSpre, hr, hex, hey2, hs1eq⟩ := hloop.2 elp hE
    obtain ⟨hbx, hby, _, hdmle, hdmax, _⟩ := hSpre.heapElems elp (pheapRemove_mem hr)
    rw [hex] at hbx
    rw [hey2] at hby
    rw [hex, hey2] at hdmle
    have hgin : xf < pixs.w ∧ yf < pixs.h := ⟨hbx, hby⟩
    have hdg : pixGetD pre.pixr xf yf < MAXD := by omega
    have hlow := hSpre.lowBound xf hbx yf hby hdg
    have hkey := key_upper pixs xi yi xf yf pre hSpre elp.distance
      (pheapRemove_min hr) hdmle hgin (by omega)
    rw [hs1eq] at hwalk
    have hcardlt : (Finset.filter
        (fun c => pixGetD (GState.mk pre.pixr pre.pixp rest).pixr c.1 c.2 ≤
          pixGetD pre.pixr xf yf)
        (Finset.range pixs.w ×ˢ Finset.range pixs.h)).card <
        walkFuel pixs.w pixs.h := by
      have h1 := Finset.card_filter_le
        (Finset.range pixs.w ×ˢ Finset.range pixs.h)
        (fun c => pixGetD (GState.mk pre.pixr pre.pixp rest).pixr c.1 c.2 ≤
          pixGetD pre.pixr xf yf)
      rw [Finset.card_product, Finset.card_range, Finset.card_range] at h1
      unfold walkFuel
      omega
    obtain ⟨l, hwl, hpath, hcost⟩ := walk_ok pixs xi yi
      (GState.mk pre.pixr pre.pixp rest) hSpre.parentInv
      (pixGetD pre.pixr xf yf) xf yf hbx hby hdg rfl
      (walkFuel pixs.w pixs.h) hcardlt
    rw [hwl] at hwalk
    have hlp : l = pta := Option.some.inj hwalk
    rw [hlp] at hpath hcost
    exact ⟨hpath, le_trans hcost hkey⟩

/-! ## Facts about one whole expansion used by the invariant claims -/

/-- The loop body preserves map well-formedness, never increases a recorded
distance, and pushes an entry only when its cost is strictly below the
target cell's previously recorded distance. -/
theorem expand_facts (pixs : Pix) (w h : Nat) (elp : MazeEl) (s : GState)
    (hwf : WFpixr pixs s.pixr) (hwfp : WFpixp pixs s.pixp) :
    WFpixr pixs (expand pixs w h elp s).pixr ∧
    WFpixp pixs (expand pixs w h elp s).pixp ∧
    (∀ x y, pixGetD (expand pixs w h elp s).pixr x y ≤ pixGetD s.pixr x y) ∧
    (∀ e ∈ (expand pixs w h elp s).heap,
      e ∈ s.heap ∨ e.distance < pixGetD s.pixr e.x e.y) := by
  have hstage : ∀ (c : Prop) (inst : Decidable c) (nx ny dir : Nat) (t : GState),
      dir < 2 ^ 8 → WFpixr pixs t.pixr → WFpixp pixs t.pixp →
      WFpixr pixs (@ite _ c inst (relax pixs elp.distance elp.val nx ny dir t) t).pixr ∧
      WFpixp pixs (@ite _ c inst (relax pixs elp.distance elp.val nx ny dir t) t).pixp ∧
      (∀ x y, pixGetD (@ite _ c inst (relax pixs elp.distance elp.val nx ny dir t) t).pixr x y
        ≤ pixGetD t.pixr x y) ∧
      (∀ e ∈ (@ite _ c inst (relax pixs elp.distance elp.val nx ny dir t) t).heap,
        e ∈ t.heap ∨ e.distance < pixGetD t.pixr e.x e.y) := by
    intro c inst nx ny dir t hdir hwft hwfpt
    split
    · refine ⟨(relax_step pixs elp.distance elp.val nx ny dir t hwft).1,
        relax_wfp pixs _ _ _ _ _ t hwfpt,
        relax_dmap_mono pixs _ _ _ _ _ t hwft hwfpt hdir, ?_⟩
      intro e he
      rcases relax_heap_sub pixs _ _ _ _ _ t e he with he' | ⟨heq, hlt⟩
      · exact Or.inl he'
      · right
        rw [heq]
        exact hlt
    · exact ⟨hwft, hwfpt, fun x y => le_refl _, fun e he => Or.inl he⟩
  unfold expand
  dsimp only
  obtain ⟨q1w, q1p, q1m, q1h⟩ := hstage (0 < elp.x) inferInstance
    (elp.x - 1) elp.y DIR_EAST s (by norm_num [DIR_EAST]) hwf hwfp
  obtain ⟨q2w, q2p, q2m, q2h⟩ := hstage (0 < elp.y) inferInstance
    elp.x (elp.y - 1) DIR_SOUTH _ (by norm_num [DIR_SOUTH]) q1w q1p
  obtain ⟨q3w, q3p, q3m, q3h⟩ := hstage (elp.x < w - 1) inferInstance
    (elp.x + 1) elp.y DIR_WEST _ (by norm_num [DIR_WEST]) q2w q2p
  obtain ⟨q4w, q4p, q4m, q4h⟩ := hstage (elp.y < h - 1) inferInstance
    elp.x (elp.y + 1) DIR_NORTH _ (by norm_num [DIR_NORTH]) q3w q3p
  refine ⟨q4w, q4p, ?_, ?_⟩
  · intro x y
    exact le_trans (q4m x y) (le_trans (q3m x y) (le_trans (q2m x y) (q1m x y)))
  · intro e he
    rcases q4h e he with he | hlt
    · rcases q3h e he with he | hlt
      · rcases q2h e he with he | hlt
        · rcases q1h e he with he | hlt
          · exact Or.inl he
          · exact Or.inr hlt
        · exact Or.inr (lt_of_lt_of_le hlt (q1m e.x e.y))
      · exact Or.inr (lt_of_lt_of_le hlt (le_trans (q2m e.x e.y) (q1m e.x e.y)))
    · exact Or.inr (lt_of_lt_of_le hlt
        (le_trans (q3m e.x e.y) (le_trans (q2m e.x e.y) (q1m e.x e.y))))

/-- The loop never increases any recorded distance across any number of
iterations. -/
theorem runLoop_dmap_mono (pixs : Pix) (xf yf : Nat) :
    ∀ (fuel : Nat) (s : GState), WFpixr pixs s.pixr → WFpixp pixs s.pixp →
      ∀ x y, pixGetD (runLoop pixs xf yf fuel s).1.pixr x y ≤
        pixGetD s.pixr x y := by
  intro fuel
  induction fuel with
  | zero => intro s _ _ x y; simp [runLoop]
  | succ f ih =>
    intro s hwf hwfp x y
    simp only [runLoop]
    cases hr : pheapRemove s.heap with
    | none => simp
    | some p =>
      obtain ⟨elp, rest⟩ := p
      dsimp only
      split
      · simp
      · obtain ⟨hw', hp', hm', _⟩ := expand_facts pixs pixs.w pixs.h elp
          (GState.mk s.pixr s.pixp rest) hwf hwfp
        exact le_trans (ih _ hw' hp' x y) (hm' x y)

/-- A successful search means the reconstruction walk on the loop's final
parent map produced exactly the returned point list. -/
theorem searchGrayMaze_ok_walk (pixs : Pix) (xi yi xf yf : Nat) (want : Bool)
    (pta : List (Nat × Nat))
    (hres : (searchGrayMaze pixs xi yi xf yf want).1 = .ok pta) :
    walkPath (runLoop pixs xf yf (loopFuel pixs.w pixs.h)
      (initState pixs xi yi)).1.pixp xi yi (walkFuel pixs.w pixs.h) xf yf
      = some pta := by
  have hguards : ¬(pixs.d ≠ 8 ∨ xi = 0 ∨ pixs.w ≤ xi ∨ yi = 0 ∨ pixs.h ≤ yi) := by
    intro hcon
    rw [searchGrayMaze_guard pixs xi yi xf yf want hcon] at hres
    simp at hres
  push_neg at hguards
  obtain ⟨hd8, hxi0, hxiw, hyi0, hyih⟩ := hguards
  rw [searchGrayMaze_run pixs xi yi xf yf want hd8 (by omega) hxiw (by omega) hyih]
    at hres
  cases hW : walkPath (runLoop pixs xf yf (loopFuel pixs.w pixs.h)
      (initState pixs xi yi)).1.pixp xi yi (walkFuel pixs.w pixs.h) xf yf with
  | none => rw [hW] at hres; simp at hres
  | some l =>
    rw [hW] at hres
    simp only [SearchOut.ok.injEq] at hres
    exact congrArg some hres

/-! ## Concrete instances used by the claim witnesses -/

/-- A 3-by-3 all-zero 8 bpp grid. -/
def grid33 : Pix := ⟨3, 3, 8, List.replicate 9 0⟩

/-- A 4-by-3 all-zero 8 bpp grid. -/
def grid43 : Pix := ⟨4, 3, 8, List.replicate 12 0⟩

/-- A 3-by-3 all-zero 1 bpp (binary) image: the wrong depth for the search. -/
def gridBinary : Pix := ⟨3, 3, 1, List.replicate 9 0⟩

/-- A handcrafted loop state whose frontier holds a stale entry for the
center cell of `grid33` (recorded distance 0, entry distance 50), with all
other cells at distance 100 so that a relaxation from the stale entry would
fire. -/
def staleState : GState :=
  ⟨⟨3, 3, 32, [100, 100, 100, 100, 0, 100, 100, 100, 100]⟩,
    pixCreate 3 3 8, [⟨50, 1, 1, 0, 0⟩]⟩

/-- A loop state whose frontier holds a stale entry for the center cell of
`grid33` in a configuration satisfying the per-cell loop invariant (center
recorded distance 2, neighbors 3, entry distance 5). -/
def staleOkState : GState :=
  ⟨⟨3, 3, 32, [3, 3, 3, 3, 2, 3, 3, 3, 3]⟩,
    pixCreate 3 3 8, [⟨5, 1, 1, 0, 0⟩]⟩

/-- Popped stale entries are processed like any others, but under the
per-cell loop invariant none of their four relaxations can fire, so the
expansion leaves the state unchanged (observationally a skip). -/
theorem expand_stale_noop (pixs : Pix) (s : GState) (elp : MazeEl)
    (rest : List MazeEl)
    (hwdim : s.pixr.w = pixs.w ∧ s.pixr.h = pixs.h)
    (hr : pheapRemove s.heap = some (elp, rest))
    (hstale : pixGetD s.pixr elp.x elp.y < elp.distance)
    (hval : elp.val = pixGetD pixs elp.x elp.y)
    (hcell : cellInvAt pixs s elp.x elp.y) :
    expand pixs pixs.w pixs.h elp (GState.mk s.pixr s.pixp rest)
      = GState.mk s.pixr s.pixp rest := by
  have hproc : cellProcessed pixs s elp.x elp.y := by
    rcases hcell with hw | hp
    · exfalso
      obtain ⟨e, he, h1, h2, h3⟩ := hw
      have := pheapRemove_min hr e he
      omega
    · exact hp
  set s0 : GState := GState.mk s.pixr s.pixp rest with hs0
  have hnofire : ∀ nx ny, adj4 (elp.x, elp.y) (nx, ny) →
      ¬(elp.distance + stepCost elp.val (pixGetD pixs nx ny) <
        pixGetD s0.pixr nx ny) := by
    intro nx ny hadj
    show ¬(elp.distance + stepCost elp.val (pixGetD pixs nx ny) <
      pixGetD s.pixr nx ny)
    by_cases hinb : nx < pixs.w ∧ ny < pixs.h
    · have hb := hproc nx hinb.1 ny hinb.2 hadj
      have hedge : stepCost elp.val (pixGetD pixs nx ny)
          = edgeCost pixs (elp.x, elp.y) (nx, ny) := by rw [hval]; rfl
      rw [hedge]
      omega
    · rw [pixGetD_oob s.pixr nx ny (by rw [hwdim.1, hwdim.2]; exact hinb)]
      omega
  have h1 : (if 0 < elp.x then
      relax pixs elp.distance elp.val (elp.x - 1) elp.y DIR_EAST s0 else s0) = s0 := by
    split
    · rename_i hg
      exact relax_not_fired pixs _ _ _ _ _ s0
        (hnofire _ _ (adj4_west_nbr elp.x elp.y hg))
    · rfl
  have h2 : (if 0 < elp.y then
      relax pixs elp.distance elp.val elp.x (elp.y - 1) DIR_SOUTH s0 else s0) = s0 := by
    split
    · rename_i hg
      exact relax_not_fired pixs _ _ _ _ _ s0
        (hnofire _ _ (adj4_north_nbr elp.x elp.y hg))
    · rfl
  have h3 : (if elp.x < pixs.w - 1 then
      relax pixs elp.distance elp.val (elp.x + 1) elp.y DIR_WEST s0 else s0) = s0 := by
    split
    · exact relax_not_fired pixs _ _ _ _ _ s0
        (hnofire _ _ (adj4_east_nbr elp.x elp.y))
    · rfl
  have h4 : (if elp.y < pixs.h - 1 then
      relax pixs elp.distance elp.val elp.x (elp.y + 1) DIR_NORTH s0 else s0) = s0 := by
    split
    · exact relax_not_fired pixs _ _ _ _ _ s0
        (hnofire _ _ (adj4_south_nbr elp.x elp.y))
    · rfl
  show (let x := elp.x
    let y := elp.y
    let distparent := elp.distance
    let sival := elp.val
    let s1 := if 0 < x then relax pixs distparent sival (x - 1) y DIR_EAST s0 else s0
    let s2 := if 0 < y then relax pixs distparent sival x (y - 1) DIR_SOUTH s1 else s1
    let s3 := if x < pixs.w - 1 then relax pixs distparent sival (x + 1) y DIR_WEST s2 else s2
    let s4 := if y < pixs.h - 1 then relax pixs distparent sival x (y + 1) DIR_NORTH s3 else s3
    s4) = s0
  dsimp only
  rw [h1, h2, h3, h4]

/-! ## The claims -/

/-- Claim C1: for every 8-bpp grid, whenever `searchGrayMaze` returns a
point list, no 4-connected grid path between the same start and goal has a
total cost (sum of the per-step costs `1 + |elevation difference|`) strictly
lower than the returned path's total cost. -/
theorem searchGrayMaze_optimal (pixs : Pix) (xi yi xf yf : Nat) (want : Bool)
    (pta alt : List (Nat × Nat))
    (hres : (searchGrayMaze pixs xi yi xf yf want).1 = .ok pta)
    (halt : PathFromTo pixs (xi, yi) (xf, yf) alt) :
    pathCost pixs pta ≤ pathCost pixs alt :=
  le_trans (searchGrayMaze_ok_core pixs xi yi xf yf want pta hres).2
    (sInf_le_pathCost pixs (xi, yi) (xf, yf) alt halt)

/-- Witness for C1 on a concrete 4-by-3 zero grid. -/
theorem searchGrayMaze_optimal_witness :
    pathCost grid43 [(2, 1), (1, 1)] ≤ pathCost grid43 [(1, 1), (2, 1)] :=
  searchGrayMaze_optimal grid43 1 1 2 1 false [(2, 1), (1, 1)] [(1, 1), (2, 1)]
    (by decide) (by decide)

/-- Claim C2: the per-move cost used by searchGrayMaze between two cells is
`1 + |elevation(a) - elevation(b)|`; it is symmetric and always at least 1,
so there are no zero-cost moves. -/
theorem edgeCost_spec (g : Pix) (a b : Nat × Nat) :
    edgeCost g a b = 1 + ((elevAt g a : Int) - (elevAt g b : Int)).natAbs ∧
    edgeCost g a b = edgeCost g b a ∧ 1 ≤ edgeCost g a b := by
  refine ⟨?_, edgeCost_comm g a b, one_le_stepCost _ _⟩
  have habs : ((elevAt g a : Int) - (elevAt g b : Int)).natAbs
      = ((elevAt g b : Int) - (elevAt g a : Int)).natAbs := by
    rw [← Int.natAbs_neg]
    ring_nf
  unfold edgeCost stepCost
  rw [habs]

/-- Counterexample for C3: a state whose frontier's top entry is stale (its
distance 50 exceeds the cell's recorded distance 0), yet the loop body does
not skip it: expanding it changes the state (a neighbor is relaxed). -/
theorem expand_stale_not_skipped :
    pheapRemove staleState.heap
      = some (⟨50, 1, 1, 0, 0⟩, []) ∧
    pixGetD staleState.pixr 1 1 < 50 ∧
    expand grid33 3 3 ⟨50, 1, 1, 0, 0⟩
        (GState.mk staleState.pixr staleState.pixp [])
      ≠ GState.mk staleState.pixr staleState.pixp [] := by
  decide

/-- Claim C3 (amended): the loop body has no stale-entry check and always
attempts the four neighbor relaxations; however, whenever the popped entry
is stale and the popped cell satisfies the per-cell loop invariant, every
relaxation guard fails, so the expansion leaves the state unchanged — the
absence of the skip is observationally harmless. -/
theorem expand_stale_harmless (pixs : Pix) (s : GState) (elp : MazeEl)
    (rest : List MazeEl)
    (hwdim : s.pixr.w = pixs.w ∧ s.pixr.h = pixs.h)
    (hr : pheapRemove s.heap = some (elp, rest))
    (hstale : pixGetD s.pixr elp.x elp.y < elp.distance)
    (hval : elp.val = pixGetD pixs elp.x elp.y)
    (hcell : cellInvAt pixs s elp.x elp.y) :
    expand pixs pixs.w pixs.h elp (GState.mk s.pixr s.pixp rest)
      = GState.mk s.pixr s.pixp rest :=
  expand_stale_noop pixs s elp rest hwdim hr hstale hval hcell

/-- Witness for the amended C3 on a concrete invariant-satisfying state. -/
theorem expand_stale_harmless_witness :
    expand grid33 grid33.w grid33.h ⟨5, 1, 1, 0, 0⟩
        (GState.mk staleOkState.pixr staleOkState.pixp [])
      = GState.mk staleOkState.pixr staleOkState.pixp [] :=
  expand_stale_harmless grid33 staleOkState ⟨5, 1, 1, 0, 0⟩ []
    (by decide) (by decide) (by decide) (by decide) (by decide)

/-- Counterexample for C4: on a concrete grid the returned point list begins
with the goal, not the start — no reversal is performed. -/
theorem searchGrayMaze_starts_at_goal :
    (searchGrayMaze grid43 1 1 2 1 false).1 = .ok [(2, 1), (1, 1)] ∧
    [((2 : Nat), (1 : Nat)), (1, 1)].head? ≠ some ((1 : Nat), (1 : Nat)) := by
  decide

/-- Claim C4 (amended): the path handed back to the caller is in
goal-to-start order: the coordinates are collected starting at the goal and
never reversed, so the first element of any returned sequence is the goal
coordinate and the last is the start coordinate. -/
theorem searchGrayMaze_path_order (pixs : Pix) (xi yi xf yf : Nat) (want : Bool)
    (pta : List (Nat × Nat))
    (hres : (searchGrayMaze pixs xi yi xf yf want).1 = .ok pta) :
    pta.head? = some (xf, yf) ∧ pta.getLast? = some (xi, yi) := by
  have hwalk := searchGrayMaze_ok_walk pixs xi yi xf yf want pta hres
  exact ⟨walkPath_head hwalk, walkPath_getLast hwalk⟩

/-- Witness for the amended C4. -/
theorem searchGrayMaze_path_order_witness :
    ([((2 : Nat), (1 : Nat)), (1, 1)]).head? = some ((2 : Nat), (1 : Nat)) ∧
    ([((2 : Nat), (1 : Nat)), (1, 1)]).getLast? = some ((1 : Nat), (1 : Nat)) :=
  searchGrayMaze_path_order grid43 1 1 2 1 false [(2, 1), (1, 1)] (by decide)

/-- Counterexample for C5: a goal that violates the interior bounds
(`(0, 0)`, which fails `0 < x`) is not rejected: the search runs and returns
a point list rather than an error. -/
theorem searchGrayMaze_accepts_bad_goal :
    searchGrayMaze grid33 1 1 0 0 false
      = (.ok [(0, 0), (0, 1), (1, 1)], none) ∧ ¬(0 < (0 : Nat)) := by
  decide

/-- Claim C5 (amended): searchGrayMaze returns the NULL (error) result
exactly when the depth is not 8 bpp or the start coordinate violates the
interior bounds `0 < xi < w`, `0 < yi < h`; the goal coordinate is never
validated. -/
theorem searchGrayMaze_err_iff (pixs : Pix) (xi yi xf yf : Nat) (want : Bool) :
    (searchGrayMaze pixs xi yi xf yf want).1 = .err ↔
      (pixs.d ≠ 8 ∨ xi = 0 ∨ pixs.w ≤ xi ∨ yi = 0 ∨ pixs.h ≤ yi) := by
  constructor
  · intro h
    by_contra hcon
    push_neg at hcon
    obtain ⟨h1, h2, h3, h4, h5⟩ := hcon
    rw [searchGrayMaze_run pixs xi yi xf yf want h1 (by omega) h3 (by omega) h5]
      at h
    cases hW : walkPath (runLoop pixs xf yf (loopFuel pixs.w pixs.h)
        (initState pixs xi yi)).1.pixp xi yi (walkFuel pixs.w pixs.h) xf yf with
    | none => rw [hW] at h; simp at h
    | some l => rw [hW] at h; simp at h
  · intro h
    rw [searchGrayMaze_guard pixs xi yi xf yf want h]

/-- Claim C6: with an unreachable (never-popped) goal the frontier empties,
but no error is reported: the code falls through to path reconstruction,
whose parent walk never reaches the start — the C function loops forever
(the embedding's `hang` outcome), returning neither an error nor a path. -/
theorem searchGrayMaze_no_path_hangs :
    searchGrayMaze grid33 1 1 5 5 false = (.hang, none) ∧
    ∀ fuel : Nat, walkPath (runLoop grid33 5 5 (loopFuel grid33.w grid33.h)
      (initState grid33 1 1)).1.pixp 1 1 fuel 5 5 = none := by
  constructor
  · decide
  · exact walkPath_stuck
      (by
        rw [show pixGetD (runLoop grid33 5 5 (loopFuel grid33.w grid33.h)
          (initState grid33 1 1)).1.pixp 5 5 = 0 from by decide]
        exact moveToParent_zero 5 5)
      (by decide)

/-- Claim C7: searching from an interior point to itself returns the
single-point path holding exactly that point, whose total cost is zero. -/
theorem searchGrayMaze_self (pixs : Pix) (xi yi : Nat) (hd : pixs.d = 8)
    (hx0 : 0 < xi) (hxw : xi < pixs.w) (hy0 : 0 < yi) (hyh : yi < pixs.h) :
    (searchGrayMaze pixs xi yi xi yi false).1 = .ok [(xi, yi)] ∧
    pathCost pixs [(xi, yi)] = 0 := by
  refine ⟨?_, rfl⟩
  rw [searchGrayMaze_run pixs xi yi xi yi false hd hx0 hxw hy0 hyh]
  have hfuel : loopFuel pixs.w pixs.h = (5 * (pixs.w * pixs.h * MAXD) + 1) + 1 := rfl
  have hloop1 : runLoop pixs xi yi (loopFuel pixs.w pixs.h) (initState pixs xi yi)
      = (GState.mk (initState pixs xi yi).pixr (initState pixs xi yi).pixp [],
        .goalPopped ⟨0, xi, yi, pixGetD pixs xi yi, 0⟩) := by
    rw [hfuel]
    simp only [runLoop]
    rw [show pheapRemove (initState pixs xi yi).heap
      = some (⟨0, xi, yi, pixGetD pixs xi yi, 0⟩, []) from rfl]
    dsimp only
    rw [if_pos ⟨rfl, rfl⟩]
  rw [hloop1]
  dsimp only
  have hwfuel : walkFuel pixs.w pixs.h = (pixs.w * pixs.h + 1) + 1 := rfl
  rw [hwfuel]
  simp only [walkPath]
  rw [if_pos ⟨trivial, trivial⟩]

/-- Witness for C7 on a concrete grid. -/
theorem searchGrayMaze_self_witness :
    (searchGrayMaze grid33 1 1 1 1 false).1 = .ok [(1, 1)] ∧
    pathCost grid33 [(1, 1)] = 0 :=
  searchGrayMaze_self grid33 1 1 (by decide) (by decide) (by decide) (by decide)
    (by decide)

/-- Claim C8: during an expansion step the distance map only decreases
(pointwise, and strictly wherever it changes), an element is pushed onto the
frontier only with a distance strictly below the target cell's previously
recorded value, and across any number of loop iterations the distance map
never increases. -/
theorem searchGrayMaze_relax_monotone (pixs : Pix) (w h xf yf : Nat)
    (elp : MazeEl) (s : GState)
    (hwf : WFpixr pixs s.pixr) (hwfp : WFpixp pixs s.pixp) :
    (∀ x y, pixGetD (expand pixs w h elp s).pixr x y ≤ pixGetD s.pixr x y) ∧
    (∀ x y, pixGetD (expand pixs w h elp s).pixr x y ≠ pixGetD s.pixr x y →
      pixGetD (expand pixs w h elp s).pixr x y < pixGetD s.pixr x y) ∧
    (∀ e ∈ (expand pixs w h elp s).heap,
      e ∈ s.heap ∨ e.distance < pixGetD s.pixr e.x e.y) ∧
    (∀ fuel x y, pixGetD (runLoop pixs xf yf fuel s).1.pixr x y ≤
      pixGetD s.pixr x y) := by
  obtain ⟨_, _, hm, hh⟩ := expand_facts pixs w h elp s hwf hwfp
  exact ⟨hm, fun x y hne => lt_of_le_of_ne (hm x y) hne, hh,
    fun fuel x y => runLoop_dmap_mono pixs xf yf fuel s hwf hwfp x y⟩

/-- Witness for C8 at a concrete state: the west neighbor of the start is
pushed during the first expansion with cost below its previous sentinel
distance. -/
theorem searchGrayMaze_relax_monotone_witness :
    (⟨1, 0, 1, 0, 0⟩ : MazeEl) ∈ (initState grid33 1 1).heap ∨
    (⟨1, 0, 1, 0, 0⟩ : MazeEl).distance <
      pixGetD (initState grid33 1 1).pixr 0 1 :=
  (searchGrayMaze_relax_monotone grid33 3 3 2 2
      ⟨0, 1, 1, 0, 0⟩ (initState grid33 1 1) (by decide) (by decide)).2.2.1
    ⟨1, 0, 1, 0, 0⟩ (by decide)

/-- Claim C9: for every validated input the search loop terminates within
the canonical fuel (it never runs out), ending either by exhausting the
frontier or by popping the goal. -/
theorem searchGrayMaze_terminates (pixs : Pix) (xi yi xf yf : Nat)
    (hd : pixs.d = 8) (hx0 : 0 < xi) (hxw : xi < pixs.w)
    (hy0 : 0 < yi) (hyh : yi < pixs.h) :
    (runLoop pixs xf yf (loopFuel pixs.w pixs.h) (initState pixs xi yi)).2
      ≠ LoopExit.fuelOut ∧
    ((runLoop pixs xf yf (loopFuel pixs.w pixs.h) (initState pixs xi yi)).2
        = LoopExit.exhausted ∨
      ∃ elp, (runLoop pixs xf yf (loopFuel pixs.w pixs.h)
        (initState pixs xi yi)).2 = LoopExit.goalPopped elp) := by
  have h1 := runLoop_not_fuelOut pixs xf yf (loopFuel pixs.w pixs.h)
    (initState pixs xi yi) (initState_wf pixs xi yi).1 (initState_wf pixs xi yi).2
  refine ⟨h1, ?_⟩
  cases hE : (runLoop pixs xf yf (loopFuel pixs.w pixs.h)
      (initState pixs xi yi)).2 with
  | goalPopped elp => exact Or.inr ⟨elp, rfl⟩
  | exhausted => exact Or.inl rfl
  | fuelOut => exact absurd hE h1

/-- Witness for C9 on a concrete grid. -/
theorem searchGrayMaze_terminates_witness :
    (runLoop grid33 2 2 (loopFuel grid33.w grid33.h)
      (initState grid33 1 1)).2 ≠ LoopExit.fuelOut :=
  (searchGrayMaze_terminates grid33 1 1 2 2 (by decide) (by decide) (by decide)
    (by decide) (by decide)).1

/-- Claim C10: for an input image that is not 8 bpp the function returns the
NULL (error) result without searching, and the optional output-image
pointer, nulled on entry, is still NULL. -/
theorem searchGrayMaze_depth_guard (pixs : Pix) (xi yi xf yf : Nat)
    (want : Bool) (hd : pixs.d ≠ 8) :
    searchGrayMaze pixs xi yi xf yf want = (.err, none) := by
  unfold searchGrayMaze
  rw [if_pos hd]

/-- Witness for C10 on a 1 bpp image, with the out-parameter requested. -/
theorem searchGrayMaze_depth_guard_witness :
    searchGrayMaze gridBinary 1 1 2 2 true = (.err, none) :=
  searchGrayMaze_depth_guard gridBinary 1 1 2 2 true (by decide)
